import Mathlib

/-!
Verification of the catin repository (a single-machine task scheduler with a
CLI front end).  Strings from the Python source are modelled as `List Char`;
machine integers as `Nat`.  The CLI and utility code under `src/catin` is
embedded directly; the daemon-side scheduler core (task state machine, device
allocator, dependency graph) is not part of the visible sources and is
modelled from the design document where a claim needs it.
-/

namespace Catin

/-! ### Python string primitives (modelled on `List Char`) -/

/-- Whitespace characters recognised by Python's `str.strip` / `str.isspace`:
the ASCII whitespace characters plus the Unicode space separators. -/
def pyIsSpace (c : Char) : Bool :=
  c.toNat ∈ [32, 9, 10, 13, 11, 12, 28, 29, 30, 31, 133, 160, 5760,
    8192, 8193, 8194, 8195, 8196, 8197, 8198, 8199, 8200, 8201, 8202,
    8232, 8233, 8239, 8287, 12288]

/-- Drop trailing whitespace: mirror image of `List.dropWhile`. -/
def dropTrailing (l : List Char) : List Char :=
  (l.reverse.dropWhile pyIsSpace).reverse

/-- Python `str.strip()`. -/
def pyStrip (l : List Char) : List Char :=
  dropTrailing (l.dropWhile pyIsSpace)

/-- Python `s.split(c)` for a one-character separator `c`:
always returns at least one piece, and empty pieces are kept. -/
def splitOnChar (c : Char) : List Char → List (List Char)
  | [] => [[]]
  | x :: xs =>
    match splitOnChar c xs with
    | [] => [[x]]
    | y :: ys => if x = c then [] :: y :: ys else (x :: y) :: ys

/-- Python `str(n)` for a natural number: decimal digits. -/
def natChars (n : Nat) : List Char :=
  if h : n < 10 then [Char.ofNat (48 + n)]
  else natChars (n / 10) ++ [Char.ofNat (48 + n % 10)]
  decreasing_by exact Nat.div_lt_self (by omega) (by omega)

/-! ### `is_valid_filename` (src/catin/utils.py, lines 148-212)

The embedding is specialised to the non-Windows branch (`os.name != "nt"`),
with `sys.getfilesystemencoding()` taken to be UTF-8, as on the Linux hosts
the daemon targets.  `additional_reserved` is kept as a parameter. -/

/-- Membership in Python's `string.printable` restricted to ASCII:
codes 32..126 together with tab, newline, carriage return, vertical tab
and form feed. -/
def pyPrintable (c : Char) : Bool :=
  (32 ≤ c.toNat ∧ c.toNat ≤ 126) ∨ c.toNat ∈ [9, 10, 11, 12, 13]

/-- The characters matched by `_RE_INVALID_FILENAME` in `utils.py`:
unprintable ASCII characters plus `'/'`. -/
def invalidFilenameChar (c : Char) : Bool :=
  (c.toNat < 128 ∧ ¬ pyPrintable c) ∨ c = '/'

/-- UTF-8 byte length of the filename, Python's
`len(s.encode(sys.getfilesystemencoding()))` on a UTF-8 platform. -/
def byteCount (l : List Char) : Nat :=
  (l.map Char.utf8Size).sum

/-- `is_valid_filename` from `src/catin/utils.py` (non-Windows branch).
`extraReserved` models the `additional_reserved` argument; the non-Windows
reserved list is `additional_reserved + (":",)`. -/
def is_valid_filename (extraReserved : List (List Char)) (filename : List Char) : Bool :=
  if (pyStrip filename).length = 0 then false
  else if ¬ (1 ≤ byteCount filename ∧ byteCount filename < 255) then false
  else if filename ∈ extraReserved ++ [[':']] then false
  else if filename.any invalidFilenameChar then false
  else true

/-- The invalidity condition exactly as claim C6 words it: empty or
whitespace-only, contains `'/'` or an unprintable ASCII character, equals a
reserved name, or the encoded byte length is 0 or at least 255. -/
def claimInvalidFilename (extraReserved : List (List Char)) (filename : List Char) : Prop :=
  (pyStrip filename).length = 0 ∨
  filename.any invalidFilenameChar = true ∨
  filename ∈ extraReserved ++ [[':']] ∨
  byteCount filename = 0 ∨
  255 ≤ byteCount filename

instance (extra : List (List Char)) (l : List Char) :
    Decidable (claimInvalidFilename extra l) := by
  unfold claimInvalidFilename; infer_instance

/-- Modelled from the spec: the scheduler core (not under `src/`) is specified
by §4.4 as `create(tasks)`, which "validates name uniqueness ... registers
tasks in WAITING, returns per-task success/failure (failure reasons:
duplicate name, invalid filename/characters, malformed resource spec)".
Only the invalid-filename failure reason is modelled: the result is the pair
(success names, failure names) induced by filename validation. -/
def createReport (extraReserved : List (List Char)) (names : List (List Char)) :
    List (List Char) × List (List Char) :=
  (names.filter (fun n => is_valid_filename extraReserved n),
   names.filter (fun n => ¬ is_valid_filename extraReserved n))

/-! ### Task states (spec §3)

Modelled from the spec: the task state machine of §3 with terminal states
SUCCEEDED, FAILED, CANCELLED; SUSPENDED split into its two documented
flavours (suspended-from-WAITING and suspended-from-RUNNING). -/

/-- Task names. -/
abbrev TName := List Char

inductive TState where
  | waiting
  | suspendedW
  | running
  | suspendedR
  | succeeded
  | failed
  | cancelled
deriving DecidableEq, Repr

/-- Terminal states per §3: SUCCEEDED, FAILED, CANCELLED. -/
def TState.isTerminal : TState → Bool
  | .succeeded | .failed | .cancelled => true
  | _ => false

/-- The states in which a task holds its device reservation per §3:
RUNNING and RUNNING-suspended. -/
def TState.holdsDevices : TState → Bool
  | .running | .suspendedR => true
  | _ => false

/-! ### Responses and the CLI printing paths (src/catin/cli.py) -/

/-- The response shape of §6.  `err` models the `error()` predicate
(protocol/validation-level failure); `detail` is the human-readable string
(`""` standing for Python's `None`); `pid` is absent or a process id. -/
structure Response where
  ok : Bool
  err : Bool
  success : List TName
  failure : List TName
  no_op : List TName
  detail : TName
  pid : Option Nat
deriving DecidableEq, Repr

/-- The `echo` helper inside `print_response` (cli.py line 42): a message is
printed only when it is truthy (present and nonempty). -/
def echoOpt (m : Option (List Char)) : List (List Char) :=
  match m with
  | none => []
  | some s => if s = [] then [] else [s]

/-- `print_response` from `src/catin/cli.py` (lines 25-56), returning the
echoed lines and the process exit status (0 = fall through, 1 = `sys.exit(1)`).
The three message producers have already been applied to the response's
lists, hence are plain optional messages here. -/
def print_response (r : Response) (success_msg failure_msg no_op_msg : Option (List Char)) :
    List (List Char) × Nat :=
  if r.ok then (echoOpt success_msg, 0)
  else if r.err then ([r.detail], 1)
  else (echoOpt success_msg ++ echoOpt no_op_msg ++ echoOpt failure_msg ++
        echoOpt (some r.detail), 0)

/-- The line `f"{name} is running with PID {pid}."` printed by the `test`
command (cli.py line 216). -/
def pidLineOut (name : List Char) (p : Nat) : List Char :=
  name ++ (" is running with PID ").data ++ natChars p ++ ['.']

/-- The `test` CLI command from `src/catin/cli.py` (lines 197-218), given the
backend's response: returns the echoed lines and the exit status. -/
def testCmd (nameArg : Option TName) (r : Response) : List (List Char) × Nat :=
  if r.err then ([r.detail], 1)
  else
    let name := nameArg.getD ("backend").data
    if ¬ r.ok then
      ([name ++ (" does not exist, has not started yet, or has already ended.").data], 0)
    else
      match r.pid with
      | some p => if p ≠ 0 then ([pidLineOut name p], 0) else ([name ++ (" is running.").data], 0)
      | none => ([name ++ (" is running.").data], 0)

/-- Modelled from the spec: the daemon-side handler of `test(name?)` (§6,
not under `src/`): with no name it answers for the daemon itself (alive,
with the daemon's PID); with a name it reports `ok` and a `pid` only when
that task is RUNNING.  The registry stores each task's state and optional
OS pid. -/
def daemonTest (reg : List (TName × TState × Option Nat)) (daemonPid : Nat)
    (name : Option TName) : Response :=
  match name with
  | none =>
    { ok := true, err := false, success := [], failure := [], no_op := [],
      detail := [], pid := some daemonPid }
  | some n =>
    match (reg.find? (fun p => p.1 = n)).map (·.2) with
    | some (st, pd) =>
      if st = .running then
        { ok := true, err := false, success := [], failure := [], no_op := [],
          detail := [], pid := pd }
      else
        { ok := false, err := false, success := [], failure := [], no_op := [],
          detail := [], pid := none }
    | none =>
      { ok := false, err := false, success := [], failure := [], no_op := [],
        detail := [], pid := none }

/-! ### The `create` command's `--multirun` expansion (cli.py lines 296-314) -/

/-- `value.startswith("[") and value.endswith("]")`. -/
def bracketForm (v : List Char) : Bool :=
  v.head? = some '[' ∧ v.getLast? = some ']'

/-- The `parse_list` lambda in `create` (cli.py lines 299-303):
`value[1:-1].split(",")` when bracketed, else the singleton. -/
def parse_list (v : List Char) : List (List Char) :=
  if bracketForm v then splitOnChar ',' ((v.drop 1).dropLast) else [v]

/-- The `list_args` loop in `create` (cli.py lines 305-310): an argument
containing `'='` is split at the first `'='` and only the value part goes
through `parse_list`, each variant re-prefixed with `key=`. -/
def buildListArgs (args : List (List Char)) : List (List (List Char)) :=
  args.map fun arg =>
    if '=' ∈ arg then
      (parse_list ((arg.dropWhile (· ≠ '=')).tail)).map
        (fun v => arg.takeWhile (· ≠ '=') ++ '=' :: v)
    else parse_list arg

/-- `itertools.product`, in product order (first list varies slowest). -/
def cartProd {α : Type} : List (List α) → List (List α)
  | [] => [[]]
  | xs :: rest => xs.flatMap fun x => (cartProd rest).map (x :: ·)

/-- The `extra_args` computed by `create` (cli.py lines 297-314):
the Cartesian product of the per-argument variant lists when `--multirun`
is set and there are trailing arguments, otherwise the single verbatim
argument vector. -/
def multirunExtra (multirun : Bool) (args : List (List Char)) : List (List (List Char)) :=
  if multirun ∧ args ≠ [] then cartProd (buildListArgs args) else [args]

/-- The submitted command lines (cli.py line 358):
`shlex.split(input) + list(ex_args)` for each expanded argument vector. -/
def buildCmds (base : List (List Char)) (extras : List (List (List Char))) :
    List (List (List Char)) :=
  extras.map (fun ex => base ++ ex)

/-- The per-argument variant list exactly as claim C8 words it: an argument
of the form `[v1,...,vk]`, or `key=[v1,...,vk]`, is split on commas into its
k variants; anything else is a single variant. -/
def claimVariants (arg : List Char) : List (List Char) :=
  if bracketForm arg then splitOnChar ',' ((arg.drop 1).dropLast)
  else if '=' ∈ arg ∧ bracketForm ((arg.dropWhile (· ≠ '=')).tail) then
    (splitOnChar ',' (((((arg.dropWhile (· ≠ '=')).tail)).drop 1).dropLast)).map
      (fun v => arg.takeWhile (· ≠ '=') ++ '=' :: v)
  else [arg]

/-- The expansion claim C8 asserts: the Cartesian product of the claimed
variant lists. -/
def claimExpansion (args : List (List Char)) : List (List (List Char)) :=
  cartProd (args.map claimVariants)

/-- The amended per-argument variant list: an argument containing `'='` is
split at the first `'='` and expanded only when the value part is bracketed;
an argument without `'='` is expanded when it is bracketed itself.  A
bracketed argument whose content contains `'='` is therefore left verbatim. -/
def amendedVariants (arg : List Char) : List (List Char) :=
  if '=' ∈ arg then
    if bracketForm ((arg.dropWhile (· ≠ '=')).tail) then
      (splitOnChar ',' (((((arg.dropWhile (· ≠ '=')).tail)).drop 1).dropLast)).map
        (fun v => arg.takeWhile (· ≠ '=') ++ '=' :: v)
    else [arg]
  else if bracketForm arg then splitOnChar ',' ((arg.drop 1).dropLast)
  else [arg]

/-! ### Scheduler state model (spec §3-§4.4)

Modelled from the spec: the scheduler core (task registry, device
reservations, the suspend/resume/kill/remove/admission/finish/cascade
operations of §4.4) is not under `src/`; it is embedded here following the
design document.  Reservations are tracked separately from task states so
that the reservation invariant of §3 is a real property, not a definition. -/

/-- Scheduler-owned state: the task registry (name → state) and the set of
task names currently holding a device reservation. -/
structure SState where
  tasks : List (TName × TState)
  resv : List TName
deriving DecidableEq, Repr

/-- Association-list lookup on the registry. -/
def alookup {β : Type} (l : List (TName × β)) (n : TName) : Option β :=
  (l.find? (fun p => p.1 = n)).map (·.2)

/-- Apply a per-task state transformer, keeping names fixed. -/
def mapSnd (f : TName → TState → TState) (l : List (TName × TState)) :
    List (TName × TState) :=
  l.map fun p => (p.1, f p.1 p.2)

/-- `names = None` means "all tasks" in every §4.4 operation. -/
def targeted (names : Option (List TName)) (n : TName) : Bool :=
  match names with
  | none => true
  | some l => n ∈ l

/-- The per-operation outcome: success / failure / no-op lists (§6) plus the
device reservations released by the operation. -/
structure Outcome where
  success : List TName
  failure : List TName
  no_op : List TName
  released : List TName
deriving DecidableEq, Repr

/-- Explicitly named tasks that are not in the registry (TaskNotFound). -/
def missingNames (s : SState) (names : Option (List TName)) : List TName :=
  (names.getD []).filter (fun n => alookup s.tasks n = none)

/-- Modelled from the spec (§4.4 `suspend`): WAITING → SUSPENDED,
RUNNING → SUSPENDED keeping the device reservation; tasks already
SUSPENDED or terminal are no-ops; unknown names are failures. -/
def suspendOp (s : SState) (names : Option (List TName)) : SState × Outcome :=
  ({ tasks := mapSnd (fun n st =>
       if targeted names n then
         if st = .waiting then .suspendedW
         else if st = .running then .suspendedR
         else st
       else st) s.tasks,
     resv := s.resv },
   { success := (s.tasks.filter fun p =>
       targeted names p.1 ∧ (p.2 = .waiting ∨ p.2 = .running)).map (·.1),
     failure := missingNames s names,
     no_op := (s.tasks.filter fun p =>
       targeted names p.1 ∧ ¬ (p.2 = .waiting ∨ p.2 = .running)).map (·.1),
     released := [] })

/-- Modelled from the spec (§4.4 `resume`): SUSPENDED → WAITING or RUNNING
according to the flavour, without touching reservations; non-suspended
tasks are no-ops; unknown names are failures. -/
def resumeOp (s : SState) (names : Option (List TName)) : SState × Outcome :=
  ({ tasks := mapSnd (fun n st =>
       if targeted names n then
         if st = .suspendedW then .waiting
         else if st = .suspendedR then .running
         else st
       else st) s.tasks,
     resv := s.resv },
   { success := (s.tasks.filter fun p =>
       targeted names p.1 ∧ (p.2 = .suspendedW ∨ p.2 = .suspendedR)).map (·.1),
     failure := missingNames s names,
     no_op := (s.tasks.filter fun p =>
       targeted names p.1 ∧ ¬ (p.2 = .suspendedW ∨ p.2 = .suspendedR)).map (·.1),
     released := [] })

/-- Modelled from the spec (§4.4 `kill`): every targeted non-terminal task
is CANCELLED and its reservation (if any) released; terminal tasks are
no-ops; unknown names are failures.  The `force` flag only changes the
signal used, not the state transition. -/
def killOp (s : SState) (names : Option (List TName)) (force : Bool) : SState × Outcome :=
  ({ tasks := mapSnd (fun n st =>
       if targeted names n ∧ ¬ st.isTerminal then .cancelled else st) s.tasks,
     resv := s.resv.filter fun n => ¬ targeted names n },
   { success := (s.tasks.filter fun p =>
       targeted names p.1 ∧ ¬ p.2.isTerminal).map (·.1),
     failure := missingNames s names,
     no_op := (s.tasks.filter fun p =>
       targeted names p.1 ∧ p.2.isTerminal).map (·.1),
     released := (s.tasks.filter fun p =>
       targeted names p.1 ∧ p.2.holdsDevices).map (·.1) })

/-- Modelled from the spec (§4.4 `remove`): kills targeted tasks if still
running (releasing reservations) and deletes them from the registry. -/
def removeOp (s : SState) (names : Option (List TName)) : SState × Outcome :=
  ({ tasks := s.tasks.filter fun p => ¬ targeted names p.1,
     resv := s.resv.filter fun n => ¬ targeted names n },
   { success := (s.tasks.filter fun p => targeted names p.1).map (·.1),
     failure := missingNames s names,
     no_op := [],
     released := (s.tasks.filter fun p =>
       targeted names p.1 ∧ p.2.holdsDevices).map (·.1) })

/-- Modelled from the spec (§4.4 `tick` admission): a WAITING task whose
reservation was granted transitions WAITING → RUNNING and acquires its
reservation. -/
def dispatchOp (s : SState) (n : TName) : SState × Outcome :=
  if alookup s.tasks n = some .waiting then
    ({ tasks := mapSnd (fun m st => if m = n then .running else st) s.tasks,
       resv := n :: s.resv },
     { success := [n], failure := [], no_op := [], released := [] })
  else (s, { success := [], failure := [], no_op := [], released := [] })

/-- Modelled from the spec (§4.3): on process exit, exit code 0 → SUCCEEDED,
nonzero → FAILED, and the task's reservation is released. -/
def finishOp (s : SState) (n : TName) (exitOk : Bool) : SState × Outcome :=
  if alookup s.tasks n = some .running then
    ({ tasks := mapSnd (fun m st =>
         if m = n then (if exitOk then .succeeded else .failed) else st) s.tasks,
       resv := s.resv.filter (· ≠ n) },
     { success := [], failure := [], no_op := [], released := [n] })
  else (s, { success := [], failure := [], no_op := [], released := [] })

/-! ### Dependency graph and cascade (spec §3, §4.2) -/

/-- Direct successors in the dependency graph: edges `(a, b)` mean
"b depends on a". -/
def succsOf (es : List (TName × TName)) (n : TName) : List TName :=
  (es.filter (fun e => e.1 = n)).map (·.2)

/-- All node names mentioned by the edge list. -/
def nodesOf (es : List (TName × TName)) : Finset TName :=
  es.foldr (fun e acc => insert e.1 (insert e.2 acc)) ∅

/-- One round of successor expansion. -/
def closureStep (es : List (TName × TName)) (acc : Finset TName) : Finset TName :=
  acc ∪ acc.biUnion (fun n => (succsOf es n).toFinset)

/-- Iterated successor expansion. -/
def closureIter (es : List (TName × TName)) : Nat → Finset TName → Finset TName
  | 0, acc => acc
  | k + 1, acc => closureIter es k (closureStep es acc)

/-- The root together with all its transitive dependents, computed by
saturating successor expansion. -/
def reachSet (es : List (TName × TName)) (a : TName) : Finset TName :=
  closureIter es ((nodesOf es).card + 1) {a}

/-- `Reaches es a b`: `b` is a transitive dependent of `a` (a path of one
or more edges leads from `a` to `b`). -/
inductive Reaches (es : List (TName × TName)) : TName → TName → Prop where
  | single {a b : TName} : (a, b) ∈ es → Reaches es a b
  | tail {a b c : TName} : Reaches es a b → (b, c) ∈ es → Reaches es a c

/-- Modelled from the spec (§3, §4.2 cascade): when cascade-on-failure is
enabled, every transitive dependent of the failed root that is not already
terminal transitions to CANCELLED, releasing any reservation it held;
already-terminal dependents are left untouched.  With the flag disabled the
state is unchanged (dependents stay blocked). -/
def cascadeOp (cascadeFlag : Bool) (es : List (TName × TName)) (s : SState)
    (root : TName) : SState × Outcome :=
  if cascadeFlag then
    ({ tasks := mapSnd (fun n st =>
         if (n ∈ reachSet es root ∧ n ≠ root) ∧ ¬ st.isTerminal then .cancelled else st)
         s.tasks,
       resv := s.resv.filter fun n => ¬ (n ∈ reachSet es root ∧ n ≠ root) },
     { success := [], failure := [], no_op := [],
       released := (s.tasks.filter fun p =>
         (p.1 ∈ reachSet es root ∧ p.1 ≠ root) ∧ p.2.holdsDevices).map (·.1) })
  else (s, { success := [], failure := [], no_op := [], released := [] })

/-- A single scheduler transition (one §4.4 operation applied on the
serialized control loop), recording which reservations it released. -/
inductive SStep (cfg : Bool) (es : List (TName × TName)) :
    SState → SState → List TName → Prop where
  | suspend (s : SState) (names : Option (List TName)) :
      SStep cfg es s (suspendOp s names).1 (suspendOp s names).2.released
  | resume (s : SState) (names : Option (List TName)) :
      SStep cfg es s (resumeOp s names).1 (resumeOp s names).2.released
  | kill (s : SState) (names : Option (List TName)) (force : Bool) :
      SStep cfg es s (killOp s names force).1 (killOp s names force).2.released
  | removeStep (s : SState) (names : Option (List TName)) :
      SStep cfg es s (removeOp s names).1 (removeOp s names).2.released
  | dispatch (s : SState) (n : TName) :
      SStep cfg es s (dispatchOp s n).1 (dispatchOp s n).2.released
  | finish (s : SState) (n : TName) (exitOk : Bool) :
      SStep cfg es s (finishOp s n exitOk).1 (finishOp s n exitOk).2.released
  | cascade (s : SState) (root : TName) :
      SStep cfg es s (cascadeOp cfg es s root).1 (cascadeOp cfg es s root).2.released

/-- Zero or more scheduler transitions. -/
inductive SSteps (cfg : Bool) (es : List (TName × TName)) : SState → SState → Prop where
  | refl (s : SState) : SSteps cfg es s s
  | tail {s t u : SState} {rel : List TName} :
      SSteps cfg es s t → SStep cfg es t u rel → SSteps cfg es s u

/-- The reservation invariant of §3/§8: registry names are unique, a task
holds a device reservation iff its state is RUNNING or RUNNING-suspended,
and every reservation belongs to a registered task. -/
def Inv (s : SState) : Prop :=
  (s.tasks.map Prod.fst).Nodup ∧
  (∀ p ∈ s.tasks, (p.1 ∈ s.resv ↔ p.2.holdsDevices = true)) ∧
  (∀ n ∈ s.resv, n ∈ s.tasks.map Prod.fst)

instance (s : SState) : Decidable (Inv s) := by
  unfold Inv; infer_instance

/-! ### The kill / remove CLI commands' backend guard (cli.py lines 574-650) -/

/-- Requests the CLI can send to the daemon for these two commands. -/
inductive Req where
  | kill (names : Option (List TName)) (force : Bool)
  | removeReq (names : Option (List TName))
deriving DecidableEq, Repr

/-- What a CLI invocation did: lines echoed, requests actually sent to the
daemon, and the exit status. -/
structure CliResult where
  echoed : List (List Char)
  sent : List Req
  exitCode : Nat
deriving DecidableEq, Repr

/-- `", ".join(names)`. -/
def joinComma : List (List Char) → List Char
  | [] => []
  | [x] => x
  | x :: xs => x ++ (", ").data ++ joinComma xs

/-- The success message producer of the `kill` command (cli.py lines 599-603). -/
def killSuccessMsg (r : Response) : Option (List Char) :=
  if r.ok then some (natChars r.success.length ++ (" tasks killed successfully.").data)
  else if r.success ≠ [] then
    some (joinComma r.success ++ (" killed successfully.").data)
  else none

/-- The failure message producer of the `kill` command (cli.py line 604). -/
def killFailureMsg (r : Response) : Option (List Char) :=
  if r.failure ≠ [] then some (joinComma r.failure ++ (" failed to kill.").data) else none

/-- The no-op message producer of the `kill` command (cli.py line 605). -/
def killNoopMsg (r : Response) : Option (List Char) :=
  if r.no_op ≠ [] then some (joinComma r.no_op ++ (" are not running.").data) else none

/-- The `kill` CLI command (cli.py lines 558-606).  `confirmAnswer` is the
user's reply to the `--all` confirmation prompt; `r` the daemon's response
when a request is sent. -/
def killCmd (allFlag force : Bool) (names : List TName) (confirmAnswer : Bool)
    (r : Response) : CliResult :=
  if ("backend").data ∈ names then
    { echoed := [("You cannot kill the backend using kill command. Use `meow exit` instead.").data],
      sent := [], exitCode := 1 }
  else if allFlag then
    if names ≠ [] ∧ ¬ confirmAnswer then { echoed := [], sent := [], exitCode := 1 }
    else
      { echoed := (print_response r (killSuccessMsg r) (killFailureMsg r) (killNoopMsg r)).1,
        sent := [Req.kill none force],
        exitCode := (print_response r (killSuccessMsg r) (killFailureMsg r) (killNoopMsg r)).2 }
  else if names = [] then
    { echoed := [("No task name provided.").data], sent := [], exitCode := 1 }
  else
    { echoed := (print_response r (killSuccessMsg r) (killFailureMsg r) (killNoopMsg r)).1,
      sent := [Req.kill (some names) force],
      exitCode := (print_response r (killSuccessMsg r) (killFailureMsg r) (killNoopMsg r)).2 }

/-- The success message producer of the `remove` command (cli.py lines 642-646). -/
def removeSuccessMsg (r : Response) : Option (List Char) :=
  if r.ok then some (natChars r.success.length ++ (" tasks removed successfully.").data)
  else if r.success ≠ [] then
    some (joinComma r.success ++ (" removed successfully.").data)
  else none

/-- The failure message producer of the `remove` command (cli.py lines 647-649). -/
def removeFailureMsg (r : Response) : Option (List Char) :=
  if r.failure ≠ [] then some (joinComma r.failure ++ (" failed to remove.").data) else none

/-- The `remove` CLI command (cli.py lines 609-650). -/
def removeCmd (allFlag : Bool) (names : List TName) (confirmAnswer : Bool)
    (r : Response) : CliResult :=
  if ("backend").data ∈ names then
    { echoed := [("Backend cannot be removed.").data], sent := [], exitCode := 1 }
  else if allFlag then
    if names ≠ [] ∧ ¬ confirmAnswer then { echoed := [], sent := [], exitCode := 1 }
    else
      { echoed := (print_response r (removeSuccessMsg r) (removeFailureMsg r) none).1,
        sent := [Req.removeReq none],
        exitCode := (print_response r (removeSuccessMsg r) (removeFailureMsg r) none).2 }
  else if names = [] then
    { echoed := [("No task name provided.").data], sent := [], exitCode := 1 }
  else
    { echoed := (print_response r (removeSuccessMsg r) (removeFailureMsg r) none).1,
      sent := [Req.removeReq (some names)],
      exitCode := (print_response r (removeSuccessMsg r) (removeFailureMsg r) none).2 }

/-- Modelled from the spec: what the daemon's registry does with a request
(§4.4), used to state that an invocation which sends no request leaves the
registry unchanged. -/
def applyReq (s : SState) : Req → SState
  | .kill names force => (killOp s names force).1
  | .removeReq names => (removeOp s names).1

/-- Apply a sequence of requests in order. -/
def applyReqs (s : SState) (rs : List Req) : SState :=
  rs.foldl applyReq s

/-! ### Device allocator (spec §4.1) -/

/-- Modelled from the spec: per-device identity, total memory capacity and
currently-reserved memory (§3). -/
structure Device where
  devId : Nat
  capacity : Nat
  reserved : Nat
deriving DecidableEq, Repr

/-- Free memory of a device. -/
def Device.freeMem (d : Device) : Nat := d.capacity - d.reserved

/-- The §4.1 selection order: most free memory first, ties broken by lowest
device id. -/
def bestFitB (a b : Device) : Bool :=
  b.freeMem < a.freeMem ∨ (a.freeMem = b.freeMem ∧ a.devId ≤ b.devId)

/-- Modelled from the spec (§4.1 `try_reserve`): among the requested devices
whose free memory suffices, pick the smallest feasible subset (of size
`minDevices`) in best-fit-descending order and reserve `memPerDevice` on
each member atomically; return `none` when fewer than `minDevices` devices
are feasible. -/
def try_reserve (devs : List Device) (ids : List Nat) (memPerDevice minDevices : Nat) :
    Option (List Nat × List Device) :=
  let cands := devs.filter fun d => d.devId ∈ ids ∧ memPerDevice ≤ d.freeMem
  let sorted := List.insertionSort (fun a b => bestFitB a b = true) cands
  if minDevices ≤ sorted.length then
    let chosenIds := (sorted.take minDevices).map (·.devId)
    some (chosenIds,
      devs.map fun d =>
        if d.devId ∈ chosenIds then { d with reserved := d.reserved + memPerDevice } else d)
  else none

/-! ### `Magics.resolve` (src/catin/utils.py, lines 215-237)

`Magics.resolve` strips the input string and substitutes every match of the
regular expression `\${(.+)}` (leftmost, greedy, `.` not crossing a
newline): an expression with a `':'` is a resolver call whose comma-split
parameters are resolved recursively, otherwise it is a keyword lookup.
Every failure inside the substitution callback (unknown resolver, resolver
raising, missing keyword, `None` value) is swallowed by the bare `except`
and leaves the matched text verbatim.  Keyword values are modelled as
strings (what the CLI passes). -/

/-- The ambient resolver/keyword environment of a call:
`resolvers name = none` models a KeyError on `settings.resolvers`, a
resolver returning `none` models the resolver raising; `vars k = none`
models a KeyError on `kwargs`, `some none` a `None` value. -/
structure MagicEnv where
  resolvers : List Char → Option (List (List Char) → Option (List Char))
  vars : List Char → Option (Option (List Char))

/-- Index of the last occurrence of `c`. -/
def lastIdxOf (c : Char) : List Char → Option Nat
  | [] => none
  | x :: xs =>
    match lastIdxOf c xs with
    | some j => some (j + 1)
    | none => if x = c then some 0 else none

/-- Greedy match of `(.+)}` immediately after a `"${"`: the group runs to
the last `'}'` of the newline-free span and must be nonempty; returns the
group and the remainder of the string. -/
def tryMatch (cs : List Char) : Option (List Char × List Char) :=
  match lastIdxOf '}' (cs.takeWhile (· ≠ '\n')) with
  | none => none
  | some j =>
    if 1 ≤ j then some ((cs.takeWhile (· ≠ '\n')).take j, cs.drop (j + 1)) else none

/-- The matched text `"${" + group + "}"`, used when substitution fails. -/
def verbatimOf (g : List Char) : List Char := '$' :: '{' :: g ++ ['}']

/-- Whether the string contains the substring `"${"` (the only way the
substitution regex can match). -/
def hasMagic : List Char → Bool
  | [] => false
  | [_] => false
  | c1 :: c2 :: rest => (c1 = '$' ∧ c2 = '{') ∨ hasMagic (c2 :: rest)

mutual
/-- `re.sub(r"\${(.+)}", _resolve, ·)`: scan left to right, replace each
greedy match through the callback, copy everything else. -/
def substM (env : MagicEnv) : List Char → List Char
  | [] => []
  | [c] => [c]
  | c1 :: c2 :: rest =>
    if c1 = '$' ∧ c2 = '{' then
      match h : tryMatch rest with
      | some (g, suf) => resolveGroup env g ++ substM env suf
      | none => c1 :: substM env (c2 :: rest)
    else c1 :: substM env (c2 :: rest)
termination_by l => (l.length, 0)
decreasing_by
  · have hli : ∀ (c : Char) (l : List Char) (j : Nat),
        lastIdxOf c l = some j → j < l.length := by
      intro c l
      induction l with
      | nil => intro j hj; simp [lastIdxOf] at hj
      | cons x xs ih =>
        intro j hj
        simp only [lastIdxOf] at hj
        cases hx : lastIdxOf c xs with
        | some k =>
          rw [hx] at hj; injection hj with hj; subst hj
          have := ih k hx; simp; omega
        | none =>
          rw [hx] at hj
          by_cases he : x = c
          · simp [he] at hj; subst hj; simp
          · simp [he] at hj
    have hb : g.length < rest.length ∧ suf.length < rest.length := by
      unfold tryMatch at h
      cases hj : lastIdxOf '}' (rest.takeWhile (· ≠ '\n')) with
      | none => rw [hj] at h; simp at h
      | some j =>
        rw [hj] at h
        by_cases h1 : 1 ≤ j
        · simp [h1] at h
          obtain ⟨hg, hs⟩ := h
          have hjlt := hli _ _ _ hj
          have hrun : (rest.takeWhile (· ≠ '\n')).length ≤ rest.length :=
            (List.takeWhile_sublist _).length_le
          constructor
          · rw [← hg]; simp [List.length_take]; omega
          · rw [← hs]; simp [List.length_drop]; omega
        · simp [h1] at h
    simp_wf; left; omega
  · have hli : ∀ (c : Char) (l : List Char) (j : Nat),
        lastIdxOf c l = some j → j < l.length := by
      intro c l
      induction l with
      | nil => intro j hj; simp [lastIdxOf] at hj
      | cons x xs ih =>
        intro j hj
        simp only [lastIdxOf] at hj
        cases hx : lastIdxOf c xs with
        | some k =>
          rw [hx] at hj; injection hj with hj; subst hj
          have := ih k hx; simp; omega
        | none =>
          rw [hx] at hj
          by_cases he : x = c
          · simp [he] at hj; subst hj; simp
          · simp [he] at hj
    have hb : g.length < rest.length ∧ suf.length < rest.length := by
      unfold tryMatch at h
      cases hj : lastIdxOf '}' (rest.takeWhile (· ≠ '\n')) with
      | none => rw [hj] at h; simp at h
      | some j =>
        rw [hj] at h
        by_cases h1 : 1 ≤ j
        · simp [h1] at h
          obtain ⟨hg, hs⟩ := h
          have hjlt := hli _ _ _ hj
          have hrun : (rest.takeWhile (· ≠ '\n')).length ≤ rest.length :=
            (List.takeWhile_sublist _).length_le
          constructor
          · rw [← hg]; simp [List.length_take]; omega
          · rw [← hs]; simp [List.length_drop]; omega
        · simp [h1] at h
    simp_wf; left; omega
  · simp_wf; left; omega
  · simp_wf; left; omega

/-- The `_resolve` callback on a matched group (utils.py lines 223-235):
resolver call when the group contains `':'`, keyword lookup otherwise;
every failure yields the matched text verbatim. -/
def resolveGroup (env : MagicEnv) (g : List Char) : List Char :=
  if hc : ':' ∈ g then
    match env.resolvers (g.takeWhile (· ≠ ':')) with
    | none => verbatimOf g
    | some f =>
      match f ((splitOnChar ',' ((g.dropWhile (· ≠ ':')).tail)).attach.map
          fun p => resolveM env p.1) with
      | none => verbatimOf g
      | some out => out
  else
    match env.vars g with
    | some (some v) => v
    | _ => verbatimOf g
termination_by (g.length + 2, 1)
decreasing_by
  · have hsp : ∀ (l : List Char), ∀ q ∈ splitOnChar ',' l, q.length ≤ l.length := by
      intro l
      induction l with
      | nil => intro q hq; simp [splitOnChar] at hq; simp [hq]
      | cons x xs ih =>
        intro q hq
        simp only [splitOnChar] at hq
        cases hs : splitOnChar ',' xs with
        | nil => rw [hs] at hq; simp at hq; simp [hq]
        | cons y ys =>
          rw [hs] at hq
          by_cases he : x = ','
          · simp [he] at hq
            rcases hq with hh | hh | hh
            · simp [hh]
            · have := ih y (by rw [hs]; simp)
              simp [hh]; omega
            · have := ih q (by rw [hs]; right; exact hh)
              simp; omega
          · simp [he] at hq
            rcases hq with hh | hh
            · subst hh
              have := ih y (by rw [hs]; simp)
              simp; omega
            · have := ih q (by rw [hs]; right; exact hh)
              simp; omega
    have hple := hsp _ _ p.2
    have hlt : (g.dropWhile (· ≠ ':')).tail.length + 1 ≤ g.length := by
      have h1 : g.dropWhile (· ≠ ':') ≠ [] := by
        intro hemp
        rw [List.dropWhile_eq_nil_iff] at hemp
        have := hemp ':' hc
        simp at this
      have h2 : (g.dropWhile (· ≠ ':')).length ≤ g.length :=
        (List.dropWhile_sublist _).length_le
      cases hdw : g.dropWhile (· ≠ ':') with
      | nil => exact absurd hdw h1
      | cons a as => rw [hdw] at h2; simp at h2 ⊢; omega
    simp_wf; left; omega

/-- `Magics.resolve` (utils.py lines 218-237): strip the input, then run the
regex substitution over it. -/
def resolveM (env : MagicEnv) (s : List Char) : List Char := substM env (pyStrip s)
termination_by (s.length + 1, 2)
decreasing_by
  · have h2 : (s.dropWhile pyIsSpace).length ≤ s.length :=
      (List.dropWhile_sublist _).length_le
    have h3 := (List.dropWhile_sublist
      (l := (s.dropWhile pyIsSpace).reverse) pyIsSpace).length_le
    have h4 : (pyStrip s).length ≤ s.length := by
      unfold pyStrip dropTrailing
      simp at h3 ⊢
      omega
    simp_wf; left; omega
end

/-- The release-accounting property of claim C1: each step's released list
contains a task exactly once when the task transitioned out of a
reservation-holding state, and not at all otherwise. -/
def releasedOnce (s s' : SState) (rel : List TName) : Prop :=
  ∀ n st, alookup s.tasks n = some st →
    rel.count n =
      if st.holdsDevices = true ∧
         ((alookup s'.tasks n).map TState.holdsDevices).getD false = false
      then 1 else 0

/-- A task that is terminal, or not registered at all. -/
def deadOrGone (s : SState) (n : TName) : Prop :=
  ∀ st, alookup s.tasks n = some st → st.isTerminal = true

/-! ## Theorems -/

theorem map_fst_mapSnd (f : TName → TState → TState) (l : List (TName × TState)) :
    (mapSnd f l).map Prod.fst = l.map Prod.fst := by
  simp [mapSnd, List.map_map]

theorem alookup_nil {β : Type} (n : TName) : alookup ([] : List (TName × β)) n = none := rfl

theorem alookup_cons {β : Type} (p : TName × β) (t : List (TName × β)) (n : TName) :
    alookup (p :: t) n = if p.1 = n then some p.2 else alookup t n := by
  by_cases h : p.1 = n
  · unfold alookup
    rw [List.find?_cons_of_pos _ (by simpa using h)]
    simp [h]
  · unfold alookup
    rw [List.find?_cons_of_neg _ (by simpa using h)]
    simp [h]

theorem alookup_mapSnd (f : TName → TState → TState) (l : List (TName × TState)) (n : TName) :
    alookup (mapSnd f l) n = (alookup l n).map (f n) := by
  induction l with
  | nil => simp [alookup, mapSnd]
  | cons p t ih =>
    show alookup ((p.1, f p.1 p.2) :: mapSnd f t) n = _
    rw [alookup_cons, alookup_cons]
    by_cases h : p.1 = n
    · subst h
      simp
    · simp [h, ih]

theorem mem_of_alookup {β : Type} (l : List (TName × β)) (n : TName) (st : β)
    (h : alookup l n = some st) : (n, st) ∈ l := by
  induction l with
  | nil => simp [alookup] at h
  | cons p t ih =>
    rw [alookup_cons] at h
    by_cases hp : p.1 = n
    · rw [if_pos hp] at h
      have : p = (n, st) := by
        cases p with
        | mk p1 p2 => simp at hp h; simp [hp, h]
      exact this ▸ List.mem_cons_self p t
    · rw [if_neg hp] at h
      exact List.mem_cons_of_mem p (ih h)

theorem alookup_eq_none_iff {β : Type} (l : List (TName × β)) (n : TName) :
    alookup l n = none ↔ n ∉ l.map Prod.fst := by
  induction l with
  | nil => simp [alookup]
  | cons p t ih =>
    rw [alookup_cons]
    by_cases h : p.1 = n
    · constructor
      · intro hc
        rw [if_pos h] at hc
        exact absurd hc (by simp)
      · intro hc
        exact absurd (List.mem_map.mpr ⟨p, List.mem_cons_self p t, h⟩) hc
    · rw [if_neg h, ih]
      constructor
      · intro hc hmem
        rcases List.mem_map.mp hmem with ⟨r, hr, hfst⟩
        rcases List.mem_cons.mp hr with he | hr'
        · exact h (he ▸ hfst)
        · exact hc (List.mem_map.mpr ⟨r, hr', hfst⟩)
      · intro hc hmem
        rcases List.mem_map.mp hmem with ⟨r, hr, hfst⟩
        exact hc (List.mem_map.mpr ⟨r, List.mem_cons_of_mem p hr, hfst⟩)

theorem alookup_of_mem_nodup (l : List (TName × TState)) (hnd : (l.map Prod.fst).Nodup)
    (p : TName × TState) (hp : p ∈ l) : alookup l p.1 = some p.2 := by
  induction l with
  | nil => simp at hp
  | cons q t ih =>
    simp only [List.map_cons, List.nodup_cons] at hnd
    rw [alookup_cons]
    rcases List.mem_cons.mp hp with h | h
    · subst h
      simp
    · have hne : q.1 ≠ p.1 := by
        intro he
        exact hnd.1 (he ▸ List.mem_map.mpr ⟨p, h, rfl⟩)
      rw [if_neg hne]
      exact ih hnd.2 h

theorem alookup_filter_key {β : Type} (q : TName → Bool) (l : List (TName × β)) (n : TName) :
    alookup (l.filter fun p => q p.1) n = if q n then alookup l n else none := by
  induction l with
  | nil => simp [alookup]
  | cons p t ih =>
    rw [List.filter_cons]
    by_cases hq : q p.1 = true
    · rw [if_pos hq, alookup_cons, ih, alookup_cons]
      by_cases hn : p.1 = n
      · subst hn
        rw [if_pos rfl, if_pos hq, if_pos rfl]
      · rw [if_neg hn, if_neg hn]
    · rw [if_neg hq, ih, alookup_cons]
      by_cases hn : p.1 = n
      · subst hn
        rw [if_neg hq, if_neg hq]
      · rw [if_neg hn]

theorem count_map_fst_filter (l : List (TName × TState)) (hnd : (l.map Prod.fst).Nodup)
    (q : TName × TState → Bool) (n : TName) (st : TState) (h : alookup l n = some st) :
    ((l.filter q).map Prod.fst).count n = if q (n, st) then 1 else 0 := by
  induction l with
  | nil => simp [alookup] at h
  | cons p t ih =>
    simp only [List.map_cons, List.nodup_cons] at hnd
    rw [alookup_cons] at h
    by_cases hp : p.1 = n
    · rw [if_pos hp] at h
      have hpst : p = (n, st) := by
        cases p with
        | mk p1 p2 => simp at hp h; simp [hp, h]
      subst hpst
      have hzero : ((t.filter q).map Prod.fst).count n = 0 := by
        rw [List.count_eq_zero]
        intro hmem
        obtain ⟨r, hr, hrfst⟩ := List.mem_map.mp hmem
        exact hnd.1 (hrfst ▸ List.mem_map.mpr ⟨r, List.mem_of_mem_filter hr, rfl⟩)
      by_cases hqp : q (n, st)
      · simp [List.filter_cons, hqp, List.count_cons, hzero]
      · simp [List.filter_cons, hqp, hzero]
    · rw [if_neg hp] at h
      have := ih hnd.2 h
      by_cases hqp : q p
      · simp only [List.filter_cons, hqp, if_true, List.map_cons]
        rw [List.count_cons, this]
        simp [hp]
      · simp only [List.filter_cons, hqp, Bool.false_eq_true, if_false]
        exact this

theorem mem_no_op_of (l : List (TName × TState)) (q : TName × TState → Bool)
    (n : TName) (st : TState) (hmem : (n, st) ∈ l) (hq : q (n, st) = true) :
    n ∈ (l.filter q).map Prod.fst :=
  List.mem_map.mpr ⟨(n, st), List.mem_filter.mpr ⟨hmem, hq⟩, rfl⟩

theorem not_mem_missing (s : SState) (names : Option (List TName)) (n : TName)
    (st : TState) (h : alookup s.tasks n = some st) : n ∉ missingNames s names := by
  intro hmem
  unfold missingNames at hmem
  have := (List.mem_filter.mp hmem).2
  rw [h] at this
  simp at this

/-- C5: a response whose `error()` predicate holds (a protocol/validation
failure, which by §6 implies the request did not fully succeed, i.e.
`ok` is false) makes the CLI print the response's `detail` and exit with
status 1 — in `print_response` and in the `test` command's explicit check;
a protocol error on these paths is never swallowed. -/
theorem c5_protocol_error_surfaced :
    (∀ (r : Response) (sm fm nm : Option (List Char)),
        r.err = true → r.ok = false →
        print_response r sm fm nm = ([r.detail], 1)) ∧
    (∀ (a : Option TName) (r : Response), r.err = true →
        testCmd a r = ([r.detail], 1)) := by
  constructor
  · intro r sm fm nm he ho
    simp [print_response, ho, he]
  · intro a r he
    simp [testCmd, he]

theorem c5_witness :
    print_response ⟨false, true, [], [], [], ['x'], none⟩ none none none = ([['x']], 1) :=
  c5_protocol_error_surfaced.1 ⟨false, true, [], [], [], ['x'], none⟩ none none none rfl rfl

/-- C6: `is_valid_filename` (non-Windows) rejects a name exactly when it is
empty or whitespace-only, contains `'/'` or an unprintable ASCII character,
equals a reserved name, or its encoded byte length is 0 or at least 255;
and the (spec-modelled) `create` puts every such task in the failure list,
never in the success list. -/
theorem c6_invalid_filename_rejected :
    ∀ (extra : List (List Char)) (n : TName),
      (is_valid_filename extra n = false ↔ claimInvalidFilename extra n) ∧
      (claimInvalidFilename extra n →
        ∀ names, n ∈ names →
          n ∈ (createReport extra names).2 ∧ n ∉ (createReport extra names).1) := by
  intro extra n
  have hiff : is_valid_filename extra n = false ↔ claimInvalidFilename extra n := by
    simp only [is_valid_filename, claimInvalidFilename]
    by_cases h1 : (pyStrip n).length = 0 <;>
    by_cases h2 : 1 ≤ byteCount n ∧ byteCount n < 255 <;>
    by_cases h3 : n ∈ extra ++ [[':']] <;>
    by_cases h4 : n.any invalidFilenameChar = true <;>
    simp [h1, h2, h3, h4] <;> omega
  refine ⟨hiff, ?_⟩
  intro hinv names hmem
  have hfalse : is_valid_filename extra n = false := hiff.mpr hinv
  constructor
  · exact List.mem_filter.mpr ⟨hmem, by simp [hfalse]⟩
  · intro hsucc
    have := (List.mem_filter.mp hsucc).2
    rw [hfalse] at this
    simp at this

theorem c6_witness :
    claimInvalidFilename [] ['/'] ∧
    ['/'] ∈ (createReport [] [['/']]).2 ∧ ['/'] ∉ (createReport [] [['/']]).1 :=
  ⟨by decide,
   (c6_invalid_filename_rejected [] ['/']).2 (by decide) [['/']] (by decide)⟩

theorem ne_pidLine_notExist (name : List Char) (p : Nat) :
    name ++ (" does not exist, has not started yet, or has already ended.").data ≠
      pidLineOut name p := by
  intro h
  have h' : name ++ (" does not exist, has not started yet, or has already ended.").data =
      name ++ ((" is running with PID ").data ++ (natChars p ++ ['.'])) := by
    simpa [pidLineOut, List.append_assoc] using h
  have h3 := List.append_cancel_left h'
  have h4 := congrArg (List.take 2) h3
  rw [List.take_append_of_le_length (by decide)] at h4
  exact absurd h4 (by decide)

theorem ne_isRunning_pidLine (name : List Char) (p : Nat) :
    name ++ (" is running.").data ≠ pidLineOut name p := by
  intro h
  have h' : name ++ (" is running.").data =
      name ++ ((" is running with PID ").data ++ (natChars p ++ ['.'])) := by
    simpa [pidLineOut, List.append_assoc] using h
  have h3 := List.append_cancel_left h'
  have h4 := congrArg (List.take 12) h3
  rw [List.take_append_of_le_length (by decide)] at h4
  exact absurd h4 (by decide)

/-- C7: the (spec-modelled) daemon handler of `test` answers for the daemon
itself (alive, with the daemon's PID) when no name is given, and with a
name reports a pid only when that task is RUNNING; and the CLI prints the
"running with PID" line only when the response is ok and carries a nonzero
pid. -/
theorem c7_test_pid_reporting :
    (∀ (reg : List (TName × TState × Option Nat)) (dp : Nat),
        (daemonTest reg dp none).ok = true ∧ (daemonTest reg dp none).pid = some dp) ∧
    (∀ (reg : List (TName × TState × Option Nat)) (dp : Nat) (n : TName) (p : Nat),
        (daemonTest reg dp (some n)).pid = some p →
        (reg.find? (fun q => q.1 = n)).map (·.2) = some (.running, some p)) ∧
    (∀ (a : Option TName) (r : Response) (p : Nat),
        r.err = false →
        (testCmd a r).1 = [pidLineOut (a.getD ("backend").data) p] →
        r.ok = true ∧ ∃ q, r.pid = some q ∧ q ≠ 0) := by
  refine ⟨?_, ?_, ?_⟩
  · intro reg dp
    simp [daemonTest]
  · intro reg dp n p h
    have hdef : daemonTest reg dp (some n) =
        match (reg.find? (fun q => q.1 = n)).map (·.2) with
        | some (st, pd) =>
          if st = TState.running then
            { ok := true, err := false, success := [], failure := [], no_op := [],
              detail := [], pid := pd }
          else
            { ok := false, err := false, success := [], failure := [], no_op := [],
              detail := [], pid := none }
        | none =>
          { ok := false, err := false, success := [], failure := [], no_op := [],
            detail := [], pid := none } := rfl
    rw [hdef] at h
    rcases hf : (reg.find? (fun q => q.1 = n)).map (·.2) with _ | ⟨st, pd⟩
    · rw [hf] at h
      exact Option.noConfusion h
    · rw [hf] at h
      cases st
      · exact Option.noConfusion h
      · exact Option.noConfusion h
      · have hpd : pd = some p := h
        rw [hf, hpd]
      · exact Option.noConfusion h
      · exact Option.noConfusion h
      · exact Option.noConfusion h
      · exact Option.noConfusion h
  · intro a r p herr hout
    by_cases hok : r.ok
    · cases hp : r.pid with
      | none =>
        simp [testCmd, herr, hok, hp] at hout
        exact absurd hout (ne_isRunning_pidLine _ p)
      | some q =>
        by_cases hq : q = 0
        · subst hq
          simp [testCmd, herr, hok, hp] at hout
          exact absurd hout (ne_isRunning_pidLine _ p)
        · exact ⟨hok, q, rfl, hq⟩
    · simp [testCmd, herr, hok] at hout
      exact absurd hout (ne_pidLine_notExist _ p)

theorem c7_witness :
    (daemonTest [(['t'], TState.running, some 7)] 42 none).pid = some 42 ∧
    (daemonTest [(['t'], TState.running, some 7)] 42 (some ['t'])).pid = some 7 ∧
    ([( ['t'], TState.running, some 7)].find? (fun q => q.1 = ['t'])).map (·.2) =
      some (.running, some 7) :=
  ⟨(c7_test_pid_reporting.1 [(['t'], TState.running, some 7)] 42).2,
   by decide,
   c7_test_pid_reporting.2.1 [(['t'], TState.running, some 7)] 42 ['t'] 7 (by decide)⟩

theorem eq_key_eq_value_split (arg : List Char) (h : '=' ∈ arg) :
    arg.takeWhile (· ≠ '=') ++ '=' :: (arg.dropWhile (· ≠ '=')).tail = arg := by
  have hd : ∃ t, arg.dropWhile (· ≠ '=') = '=' :: t := by
    induction arg with
    | nil => simp at h
    | cons x xs ih =>
      by_cases hx : x = '='
      · subst hx
        exact ⟨xs, by simp [List.dropWhile_cons]⟩
      · have hxs : '=' ∈ xs := by
          rcases List.mem_cons.mp h with h1 | h1
          · exact absurd h1.symm hx
          · exact h1
        obtain ⟨t, ht⟩ := ih hxs
        refine ⟨t, ?_⟩
        rw [List.dropWhile_cons, if_pos (by simpa using hx)]
        exact ht
  obtain ⟨t, ht⟩ := hd
  conv_rhs => rw [← List.takeWhile_append_dropWhile (p := (· ≠ '=')) (l := arg)]
  rw [ht]
  simp

/-- The counterexample input for claim C8. -/
def c8arg : List Char := ("[a=b,c]").data

theorem c8_counterexample :
    ¬ (multirunExtra true [c8arg] = claimExpansion [c8arg]) := by
  decide

/-- C8 (amended): with `--multirun` and trailing arguments, an argument
containing `'='` is split at its first `'='` and expanded only when the
value part has the bracket form, each variant re-prefixed with `key=`; an
argument without `'='` is expanded when it is bracketed itself (so a
bracketed argument whose content contains `'='` stays verbatim); the
submitted commands are exactly the Cartesian product of these per-argument
variant lists, in product order.  Without `--multirun` (or without trailing
arguments) the arguments are appended verbatim to a single command. -/
theorem c8_multirun_expansion_amended :
    ∀ (base : List (List Char)) (m : Bool) (args : List (List Char)),
      buildCmds base (multirunExtra m args) =
        if m ∧ args ≠ [] then
          (cartProd (args.map amendedVariants)).map (fun ex => base ++ ex)
        else [base ++ args] := by
  intro base m args
  have key : buildListArgs args = args.map amendedVariants := by
    unfold buildListArgs
    apply List.map_congr_left
    intro arg _
    dsimp only
    by_cases he : '=' ∈ arg
    · rw [if_pos he]
      unfold amendedVariants
      rw [if_pos he]
      unfold parse_list
      by_cases hb : bracketForm ((arg.dropWhile (· ≠ '=')).tail) = true
      · rw [if_pos hb, if_pos hb]
      · rw [if_neg hb, if_neg hb]
        show [arg.takeWhile (· ≠ '=') ++ '=' :: (arg.dropWhile (· ≠ '=')).tail] = [arg]
        rw [eq_key_eq_value_split arg he]
    · rw [if_neg he]
      unfold amendedVariants
      rw [if_neg he]
      rfl
  unfold multirunExtra buildCmds
  by_cases hm : m ∧ args ≠ []
  · simp [hm, key]
  · simp [hm]

/-- C10: a `kill` or `remove` CLI invocation naming `backend` prints the
refusal message and exits with status 1 before sending any request, so the
daemon registry is unchanged. -/
theorem c10_backend_guard :
    ∀ (allFlag force confirm : Bool) (names : List TName) (r : Response) (s : SState),
      ("backend").data ∈ names →
      (killCmd allFlag force names confirm r).sent = [] ∧
      (killCmd allFlag force names confirm r).exitCode = 1 ∧
      (killCmd allFlag force names confirm r).echoed =
        [("You cannot kill the backend using kill command. Use `meow exit` instead.").data] ∧
      applyReqs s (killCmd allFlag force names confirm r).sent = s ∧
      (removeCmd allFlag names confirm r).sent = [] ∧
      (removeCmd allFlag names confirm r).exitCode = 1 ∧
      (removeCmd allFlag names confirm r).echoed = [("Backend cannot be removed.").data] ∧
      applyReqs s (removeCmd allFlag names confirm r).sent = s := by
  intro allFlag force confirm names r s h
  simp [killCmd, removeCmd, h, applyReqs]

theorem c10_witness :
    (killCmd false false [("backend").data] false
      ⟨true, false, [], [], [], [], none⟩).sent = [] ∧
    (killCmd false false [("backend").data] false
      ⟨true, false, [], [], [], [], none⟩).exitCode = 1 ∧
    (killCmd false false [("backend").data] false
      ⟨true, false, [], [], [], [], none⟩).echoed =
      [("You cannot kill the backend using kill command. Use `meow exit` instead.").data] ∧
    applyReqs ⟨[], []⟩ (killCmd false false [("backend").data] false
      ⟨true, false, [], [], [], [], none⟩).sent = ⟨[], []⟩ ∧
    (removeCmd false [("backend").data] false
      ⟨true, false, [], [], [], [], none⟩).sent = [] ∧
    (removeCmd false [("backend").data] false
      ⟨true, false, [], [], [], [], none⟩).exitCode = 1 ∧
    (removeCmd false [("backend").data] false
      ⟨true, false, [], [], [], [], none⟩).echoed = [("Backend cannot be removed.").data] ∧
    applyReqs ⟨[], []⟩ (removeCmd false [("backend").data] false
      ⟨true, false, [], [], [], [], none⟩).sent = ⟨[], []⟩ :=
  c10_backend_guard false false false [("backend").data]
    ⟨true, false, [], [], [], [], none⟩ ⟨[], []⟩ (by decide)


theorem terminal_not_holds (st : TState) (h : st.isTerminal = true) :
    st.holdsDevices = false := by
  cases st <;> simp_all [TState.isTerminal, TState.holdsDevices]

theorem holds_not_terminal (st : TState) (h : st.holdsDevices = true) :
    st.isTerminal = false := by
  cases st <;> simp_all [TState.isTerminal, TState.holdsDevices]

/-- C4: suspend on an already-suspended task, resume on a non-suspended
task, and kill on a terminal task each land in the no-op list (never the
failure list) and leave the task's state unchanged. -/
theorem c4_noop_idempotence :
    ∀ (s : SState) (names : Option (List TName)) (force : Bool) (n : TName) (st : TState),
      alookup s.tasks n = some st → targeted names n = true →
      ((st = .suspendedW ∨ st = .suspendedR) →
        n ∈ (suspendOp s names).2.no_op ∧ n ∉ (suspendOp s names).2.failure ∧
        alookup (suspendOp s names).1.tasks n = some st) ∧
      (¬ (st = .suspendedW ∨ st = .suspendedR) →
        n ∈ (resumeOp s names).2.no_op ∧ n ∉ (resumeOp s names).2.failure ∧
        alookup (resumeOp s names).1.tasks n = some st) ∧
      (st.isTerminal = true →
        n ∈ (killOp s names force).2.no_op ∧ n ∉ (killOp s names force).2.failure ∧
        alookup (killOp s names force).1.tasks n = some st) := by
  intro s names force n st h ht
  have hmem := mem_of_alookup _ _ _ h
  refine ⟨?_, ?_, ?_⟩
  · intro hst
    refine ⟨?_, not_mem_missing s names n st h, ?_⟩
    · exact mem_no_op_of _ _ n st hmem (by
        rcases hst with h1 | h1 <;> simp [h1, ht])
    · simp only [suspendOp]
      rw [alookup_mapSnd, h]
      rcases hst with h1 | h1 <;> simp [h1, ht]
  · intro hst
    obtain ⟨h1, h2⟩ := not_or.mp hst
    refine ⟨?_, not_mem_missing s names n st h, ?_⟩
    · exact mem_no_op_of _ _ n st hmem (by simp [ht, h1, h2])
    · simp only [resumeOp]
      rw [alookup_mapSnd, h]
      simp [ht, h1, h2]
  · intro hterm
    refine ⟨?_, not_mem_missing s names n st h, ?_⟩
    · exact mem_no_op_of _ _ n st hmem (by simp [ht, hterm])
    · simp only [killOp]
      rw [alookup_mapSnd, h]
      simp [ht, hterm]

theorem c4_witness :
    ("a").data ∈ (suspendOp ⟨[(("a").data, TState.suspendedW)], []⟩
      (some [("a").data])).2.no_op ∧
    ("a").data ∉ (suspendOp ⟨[(("a").data, TState.suspendedW)], []⟩
      (some [("a").data])).2.failure ∧
    alookup (suspendOp ⟨[(("a").data, TState.suspendedW)], []⟩
      (some [("a").data])).1.tasks ("a").data = some TState.suspendedW :=
  (c4_noop_idempotence ⟨[(("a").data, TState.suspendedW)], []⟩ (some [("a").data])
    false ("a").data TState.suspendedW (by decide) (by decide)).1 (Or.inl rfl)

theorem releasedOnce_id (s : SState) : releasedOnce s s [] := by
  intro n st h
  simp only [List.count_nil]
  symm
  rw [if_neg]
  rintro ⟨h1, h2⟩
  rw [show ((alookup s.tasks n).map TState.holdsDevices).getD false = st.holdsDevices from by
    rw [h]; rfl] at h2
  rw [h1] at h2
  exact Bool.noConfusion h2

theorem holdsPreserving_inv (s : SState) (f : TName → TState → TState)
    (hf : ∀ m st, (f m st).holdsDevices = st.holdsDevices) (hInv : Inv s) :
    Inv ⟨mapSnd f s.tasks, s.resv⟩ ∧ releasedOnce s ⟨mapSnd f s.tasks, s.resv⟩ [] := by
  obtain ⟨hnd, hiff, hsub⟩ := hInv
  constructor
  · refine ⟨?_, ?_, ?_⟩
    · show ((mapSnd f s.tasks).map Prod.fst).Nodup
      rw [map_fst_mapSnd]; exact hnd
    · intro p hp
      obtain ⟨q, hq, hqe⟩ := List.mem_map.mp hp
      rw [← hqe]
      show q.1 ∈ s.resv ↔ (f q.1 q.2).holdsDevices = true
      rw [hf q.1 q.2]
      exact hiff q hq
    · intro m hm
      rw [map_fst_mapSnd]
      exact hsub m hm
  · intro n st h
    simp only [List.count_nil]
    symm
    rw [if_neg]
    rintro ⟨h1, h2⟩
    rw [show ((alookup (mapSnd f s.tasks) n).map TState.holdsDevices).getD false =
        (f n st).holdsDevices from by rw [alookup_mapSnd, h]; rfl] at h2
    rw [hf n st, h1] at h2
    exact Bool.noConfusion h2

theorem cancelStyle_inv (s : SState) (cond : TName → Prop) [DecidablePred cond]
    (hInv : Inv s) :
    Inv ⟨mapSnd (fun m st => if cond m ∧ ¬ st.isTerminal then TState.cancelled else st) s.tasks,
        s.resv.filter (fun m => ¬ cond m)⟩ ∧
    releasedOnce s
      ⟨mapSnd (fun m st => if cond m ∧ ¬ st.isTerminal then TState.cancelled else st) s.tasks,
       s.resv.filter (fun m => ¬ cond m)⟩
      ((s.tasks.filter fun p => cond p.1 ∧ p.2.holdsDevices).map (·.1)) := by
  obtain ⟨hnd, hiff, hsub⟩ := hInv
  constructor
  · refine ⟨?_, ?_, ?_⟩
    · dsimp only
      rw [map_fst_mapSnd]
      exact hnd
    · intro p hp
      dsimp only at hp ⊢
      obtain ⟨q, hq, hqe⟩ := List.mem_map.mp hp
      rw [← hqe]
      dsimp only
      rw [List.mem_filter]
      by_cases hc : cond q.1
      · by_cases hterm : q.2.isTerminal = true
        · apply iff_of_false
          · rintro ⟨_, hd⟩
            simp at hd
            exact hd hc
          · rw [if_neg (by rintro ⟨_, hnt⟩; exact hnt hterm)]
            simp [terminal_not_holds q.2 hterm]
        · apply iff_of_false
          · rintro ⟨_, hd⟩
            simp at hd
            exact hd hc
          · rw [if_pos ⟨hc, hterm⟩]
            simp [TState.holdsDevices]
      · rw [if_neg (by rintro ⟨h1, _⟩; exact hc h1)]
        simp only [decide_eq_true_eq]
        rw [and_iff_left hc]
        exact hiff q hq
    · intro m hm
      dsimp only at hm ⊢
      rw [map_fst_mapSnd]
      exact hsub m (List.mem_of_mem_filter hm)
  · intro n st h
    dsimp only
    rw [count_map_fst_filter s.tasks hnd _ n st h]
    rw [alookup_mapSnd, h]
    simp only [Option.map_some', Option.getD_some]
    by_cases hc : cond n
    · by_cases hh : st.holdsDevices = true
      · have hnt : st.isTerminal = false := holds_not_terminal st hh
        simp [hc, hh, hnt, TState.holdsDevices]
      · simp [hc, hh]
    · by_cases hh : st.holdsDevices = true
      · simp [hc, hh]
      · simp [hc, hh]


theorem removeOp_inv (s : SState) (names : Option (List TName)) (hInv : Inv s) :
    Inv (removeOp s names).1 ∧
    releasedOnce s (removeOp s names).1 (removeOp s names).2.released := by
  obtain ⟨hnd, hiff, hsub⟩ := hInv
  constructor
  · refine ⟨?_, ?_, ?_⟩
    · simp only [removeOp]
      exact List.Nodup.sublist ((List.filter_sublist s.tasks).map Prod.fst) hnd
    · intro p hp
      simp only [removeOp] at hp ⊢
      have hmf := List.mem_filter.mp hp
      have hnt : ¬ targeted names p.1 = true := by simpa using hmf.2
      rw [List.mem_filter]
      simp only [decide_eq_true_eq]
      rw [and_iff_left hnt]
      exact hiff p hmf.1
    · intro m hm
      simp only [removeOp] at hm ⊢
      have hmf := List.mem_filter.mp hm
      have hnt : ¬ targeted names m = true := by simpa using hmf.2
      obtain ⟨q, hq, hqe⟩ := List.mem_map.mp (hsub m hmf.1)
      refine List.mem_map.mpr ⟨q, List.mem_filter.mpr ⟨hq, ?_⟩, hqe⟩
      simp only [decide_eq_true_eq]
      rw [hqe]
      exact hnt
  · intro n st h
    simp only [removeOp]
    rw [count_map_fst_filter s.tasks hnd _ n st h]
    have hlk := alookup_filter_key (fun m => (¬ targeted names m : Bool)) s.tasks n
    simp only [hlk]
    by_cases htg : targeted names n = true
    · by_cases hh : st.holdsDevices = true
      · simp [htg, hh]
      · simp [htg, hh]
    · by_cases hh : st.holdsDevices = true
      · simp [htg, hh, h]
      · simp [htg, hh, h]

theorem dispatchOp_inv (s : SState) (n0 : TName) (hInv : Inv s) :
    Inv (dispatchOp s n0).1 ∧
    releasedOnce s (dispatchOp s n0).1 (dispatchOp s n0).2.released := by
  obtain ⟨hnd, hiff, hsub⟩ := hInv
  by_cases hg : alookup s.tasks n0 = some TState.waiting
  · constructor
    · refine ⟨?_, ?_, ?_⟩
      · simp only [dispatchOp, hg, if_pos]
        rw [map_fst_mapSnd]
        exact hnd
      · intro p hp
        simp only [dispatchOp, hg, if_pos] at hp ⊢
        obtain ⟨q, hq, hqe⟩ := List.mem_map.mp hp
        rw [← hqe]
        dsimp only
        by_cases he : q.1 = n0
        · have hx := alookup_of_mem_nodup s.tasks hnd q hq
          rw [he, hg] at hx
          rw [if_pos he, he]
          simp [TState.holdsDevices]
        · rw [if_neg he, List.mem_cons, or_iff_right he]
          exact hiff q hq
      · intro m hm
        simp only [dispatchOp, hg, if_pos] at hm ⊢
        rw [map_fst_mapSnd]
        rcases List.mem_cons.mp hm with he | hm'
        · subst he
          exact List.mem_map.mpr ⟨(m, TState.waiting), mem_of_alookup _ _ _ hg, rfl⟩
        · exact hsub m hm'
    · intro n st h
      simp only [dispatchOp, hg, if_pos, List.count_nil]
      symm
      rw [if_neg]
      rintro ⟨h1, h2⟩
      rw [show ((alookup (mapSnd (fun m st => if m = n0 then TState.running else st) s.tasks)
          n).map TState.holdsDevices).getD false =
          (if n = n0 then TState.running else st).holdsDevices from by
        rw [alookup_mapSnd, h]; rfl] at h2
      by_cases he : n = n0
      · have : st = TState.waiting := by
          rw [he, hg] at h
          injection h with hh
          exact hh.symm
        rw [this] at h1
        exact Bool.noConfusion h1
      · rw [if_neg he] at h2
        rw [h1] at h2
        exact Bool.noConfusion h2
  · constructor
    · simp only [dispatchOp, hg, if_neg]
      exact ⟨hnd, hiff, hsub⟩
    · simp only [dispatchOp, hg, if_neg]
      exact releasedOnce_id s

theorem finishOp_inv (s : SState) (n0 : TName) (exitOk : Bool) (hInv : Inv s) :
    Inv (finishOp s n0 exitOk).1 ∧
    releasedOnce s (finishOp s n0 exitOk).1 (finishOp s n0 exitOk).2.released := by
  obtain ⟨hnd, hiff, hsub⟩ := hInv
  by_cases hg : alookup s.tasks n0 = some TState.running
  · constructor
    · refine ⟨?_, ?_, ?_⟩
      · simp only [finishOp, hg, if_pos]
        rw [map_fst_mapSnd]
        exact hnd
      · intro p hp
        simp only [finishOp, hg, if_pos] at hp ⊢
        obtain ⟨q, hq, hqe⟩ := List.mem_map.mp hp
        rw [← hqe]
        dsimp only
        rw [List.mem_filter]
        by_cases he : q.1 = n0
        · apply iff_of_false
          · rintro ⟨_, hd⟩
            simp at hd
            exact hd he
          · rw [if_pos he]
            cases exitOk <;> simp [TState.holdsDevices]
        · rw [if_neg he]
          simp only [decide_eq_true_eq]
          rw [and_iff_left he]
          exact hiff q hq
      · intro m hm
        simp only [finishOp, hg, if_pos] at hm ⊢
        rw [map_fst_mapSnd]
        exact hsub m (List.mem_of_mem_filter hm)
    · intro n st h
      simp only [finishOp, hg, if_pos]
      rw [List.count_cons, List.count_nil]
      have hpost : ((alookup (mapSnd (fun m st =>
          if m = n0 then (if exitOk then TState.succeeded else TState.failed) else st)
          s.tasks) n).map TState.holdsDevices).getD false =
          (if n = n0 then (if exitOk then TState.succeeded else TState.failed) else st).holdsDevices := by
        rw [alookup_mapSnd, h]
        rfl
      rw [hpost]
      by_cases he : n = n0
      · have hst : st = TState.running := by
          rw [he, hg] at h
          injection h with hh
          exact hh.symm
        subst he
        rw [hst]
        cases exitOk <;> simp [TState.holdsDevices]
      · have hne : ¬ (n0 == n) = true := by
          simp only [beq_iff_eq]
          exact fun hh => he hh.symm
        rw [if_neg he]
        simp only [hne, if_false]
        by_cases hh : st.holdsDevices = true
        · simp [hh]
        · simp [hh]
  · constructor
    · simp only [finishOp, hg, if_neg]
      exact ⟨hnd, hiff, hsub⟩
    · simp only [finishOp, hg, if_neg]
      exact releasedOnce_id s

/-- C1: across every scheduler transition, the reservation invariant (a task
holds a device reservation iff its state is RUNNING or RUNNING-suspended)
is preserved, and a task's reservation is released exactly once on every
transition out of those states (count 1 in the step's released list) and
never otherwise (count 0). -/
theorem c1_reservation_invariant :
    ∀ (cfg : Bool) (es : List (TName × TName)) (s s' : SState) (rel : List TName),
      Inv s → SStep cfg es s s' rel → Inv s' ∧ releasedOnce s s' rel := by
  intro cfg es s s' rel hInv hstep
  cases hstep with
  | suspend names =>
    exact holdsPreserving_inv s _
      (by intro m st
          by_cases h : targeted names m = true <;> cases st <;>
            simp [h, TState.holdsDevices]) hInv
  | resume names =>
    exact holdsPreserving_inv s _
      (by intro m st
          by_cases h : targeted names m = true <;> cases st <;>
            simp [h, TState.holdsDevices]) hInv
  | kill names force =>
    exact cancelStyle_inv s (fun m => targeted names m = true) hInv
  | removeStep names => exact removeOp_inv s names hInv
  | dispatch n => exact dispatchOp_inv s n hInv
  | finish n exitOk => exact finishOp_inv s n exitOk hInv
  | cascade root =>
    by_cases hc : cfg = true
    · subst hc
      have := cancelStyle_inv s (fun m => m ∈ reachSet es root ∧ m ≠ root) hInv
      simpa only [cascadeOp, if_pos] using this
    · have hcf : cfg = false := by
        cases cfg
        · rfl
        · exact absurd rfl hc
      subst hcf
      simp only [cascadeOp, Bool.false_eq_true, if_neg]
      exact ⟨hInv, releasedOnce_id s⟩

theorem c1_witness :
    Inv ⟨[(("a").data, TState.running)], [("a").data]⟩ ∧
    (Inv (killOp ⟨[(("a").data, TState.running)], [("a").data]⟩ none false).1 ∧
     releasedOnce ⟨[(("a").data, TState.running)], [("a").data]⟩
       (killOp ⟨[(("a").data, TState.running)], [("a").data]⟩ none false).1
       (killOp ⟨[(("a").data, TState.running)], [("a").data]⟩ none false).2.released) :=
  ⟨by decide,
   c1_reservation_invariant false [] ⟨[(("a").data, TState.running)], [("a").data]⟩ _ _
     (by decide) (SStep.kill ⟨[(("a").data, TState.running)], [("a").data]⟩ none false)⟩


theorem mem_nodesOf_of_edge (es : List (TName × TName)) (a b : TName) (h : (a, b) ∈ es) :
    a ∈ nodesOf es ∧ b ∈ nodesOf es := by
  induction es with
  | nil => simp at h
  | cons e t ih =>
    simp only [nodesOf, List.foldr_cons]
    rcases List.mem_cons.mp h with he | ht
    · rw [← he]
      exact ⟨Finset.mem_insert_self _ _,
        Finset.mem_insert_of_mem (Finset.mem_insert_self _ _)⟩
    · have := ih ht
      exact ⟨Finset.mem_insert_of_mem (Finset.mem_insert_of_mem this.1),
        Finset.mem_insert_of_mem (Finset.mem_insert_of_mem this.2)⟩

theorem mem_succsOf (es : List (TName × TName)) (n b : TName) :
    b ∈ succsOf es n ↔ (n, b) ∈ es := by
  unfold succsOf
  rw [List.mem_map]
  constructor
  · rintro ⟨e, he, hsnd⟩
    have hmf := List.mem_filter.mp he
    have hfst : e.1 = n := by simpa using hmf.2
    have : e = (n, b) := by
      cases e with
      | mk e1 e2 => simp at hfst hsnd; simp [hfst, hsnd]
    exact this ▸ hmf.1
  · intro h
    exact ⟨(n, b), List.mem_filter.mpr ⟨h, by simp⟩, rfl⟩

theorem subset_closureStep (es : List (TName × TName)) (acc : Finset TName) :
    acc ⊆ closureStep es acc :=
  Finset.subset_union_left

theorem subset_closureIter (es : List (TName × TName)) :
    ∀ (k : Nat) (acc : Finset TName), acc ⊆ closureIter es k acc := by
  intro k
  induction k with
  | zero => intro acc; exact fun x hx => hx
  | succ k ih =>
    intro acc
    exact (subset_closureStep es acc).trans (ih (closureStep es acc))

theorem closureIter_fix (es : List (TName × TName)) (acc : Finset TName)
    (h : closureStep es acc = acc) : ∀ k, closureIter es k acc = acc := by
  intro k
  induction k with
  | zero => rfl
  | succ k ih =>
    show closureIter es k (closureStep es acc) = acc
    rw [h]
    exact ih

theorem closureStep_bound (es : List (TName × TName)) (a : TName) (acc : Finset TName)
    (h : acc ⊆ insert a (nodesOf es)) :
    closureStep es acc ⊆ insert a (nodesOf es) := by
  unfold closureStep
  apply Finset.union_subset h
  intro x hx
  obtain ⟨n, hn, hxn⟩ := Finset.mem_biUnion.mp hx
  have hedge := (mem_succsOf es n x).mp (List.mem_toFinset.mp hxn)
  exact Finset.mem_insert_of_mem (mem_nodesOf_of_edge es n x hedge).2

theorem closed_of_budget (es : List (TName × TName)) (a : TName) :
    ∀ (k : Nat) (acc : Finset TName),
      acc ⊆ insert a (nodesOf es) →
      (insert a (nodesOf es)).card + 1 ≤ k + acc.card →
      closureStep es (closureIter es k acc) = closureIter es k acc := by
  intro k
  induction k with
  | zero =>
    intro acc hsub hcard
    have := Finset.card_le_card hsub
    simp [closureIter] at hcard
    omega
  | succ k ih =>
    intro acc hsub hcard
    by_cases hfix : closureStep es acc = acc
    · show closureStep es (closureIter es k (closureStep es acc)) = _
      rw [hfix, closureIter_fix es acc hfix k]
      show closureStep es acc = closureIter es (k + 1) acc
      rw [show closureIter es (k + 1) acc = closureIter es k (closureStep es acc) from rfl,
        hfix, closureIter_fix es acc hfix k]
    · have hlt : acc.card < (closureStep es acc).card :=
        Finset.card_lt_card ((subset_closureStep es acc).ssubset_of_ne
          (fun he => hfix he.symm))
      exact ih (closureStep es acc) (closureStep_bound es a acc hsub) (by omega)

theorem reachSet_closed (es : List (TName × TName)) (a : TName) :
    closureStep es (reachSet es a) = reachSet es a := by
  unfold reachSet
  apply closed_of_budget es a
  · intro x hx
    rw [Finset.mem_singleton] at hx
    rw [hx]
    exact Finset.mem_insert_self a _
  · have := Finset.card_insert_le a (nodesOf es)
    simp only [Finset.card_singleton]
    omega

theorem mem_reachSet_self (es : List (TName × TName)) (a : TName) : a ∈ reachSet es a :=
  subset_closureIter es _ {a} (Finset.mem_singleton_self a)

theorem succ_mem_reachSet (es : List (TName × TName)) (a n b : TName)
    (hn : n ∈ reachSet es a) (hb : (n, b) ∈ es) : b ∈ reachSet es a := by
  have hstep : b ∈ closureStep es (reachSet es a) := by
    unfold closureStep
    exact Finset.mem_union_right _
      (Finset.mem_biUnion.mpr ⟨n, hn, List.mem_toFinset.mpr ((mem_succsOf es n b).mpr hb)⟩)
  rw [reachSet_closed] at hstep
  exact hstep

theorem reaches_mem_reachSet (es : List (TName × TName)) (a n : TName)
    (h : Reaches es a n) : n ∈ reachSet es a := by
  induction h with
  | single hab => exact succ_mem_reachSet es a _ _ (mem_reachSet_self es a) hab
  | tail hr hbc ih => exact succ_mem_reachSet es a _ _ ih hbc

theorem dead_mapSnd (s1 : SState) (f : TName → TState → TState) (n : TName)
    (hf : ∀ st, st.isTerminal = true → (f n st).isTerminal = true)
    (hd : deadOrGone s1 n) :
    ∀ st, alookup (mapSnd f s1.tasks) n = some st → st.isTerminal = true := by
  intro st hlk
  rw [alookup_mapSnd] at hlk
  cases hpre : alookup s1.tasks n with
  | none =>
    rw [hpre] at hlk
    exact Option.noConfusion hlk
  | some st0 =>
    rw [hpre] at hlk
    simp only [Option.map_some'] at hlk
    injection hlk with he
    rw [← he]
    exact hf st0 (hd st0 hpre)

theorem sstep_preserves_dead (cfg : Bool) (es2 : List (TName × TName)) (s1 s2 : SState)
    (rel : List TName) (n : TName) (hstep : SStep cfg es2 s1 s2 rel)
    (hd : deadOrGone s1 n) : deadOrGone s2 n := by
  cases hstep with
  | suspend names =>
    intro st hlk
    exact dead_mapSnd s1
      (fun m st => if targeted names m then
        (if st = TState.waiting then TState.suspendedW
         else if st = TState.running then TState.suspendedR else st) else st) n
      (by intro st0 h0
          by_cases htg : targeted names n = true <;> cases st0 <;>
            simp_all [TState.isTerminal]) hd st hlk
  | resume names =>
    intro st hlk
    exact dead_mapSnd s1
      (fun m st => if targeted names m then
        (if st = TState.suspendedW then TState.waiting
         else if st = TState.suspendedR then TState.running else st) else st) n
      (by intro st0 h0
          by_cases htg : targeted names n = true <;> cases st0 <;>
            simp_all [TState.isTerminal]) hd st hlk
  | kill names force =>
    intro st hlk
    exact dead_mapSnd s1
      (fun m st => if targeted names m ∧ ¬ st.isTerminal then TState.cancelled else st) n
      (by intro st0 h0
          dsimp only
          rw [if_neg (by rintro ⟨_, hnt⟩; exact hnt h0)]
          exact h0) hd st hlk
  | removeStep names =>
    intro st hlk
    simp only [removeOp] at hlk
    have hkey := alookup_filter_key (fun m => (¬ targeted names m : Bool)) s1.tasks n
    rw [hkey] at hlk
    by_cases htg : targeted names n = true
    · rw [if_neg (by simp [htg])] at hlk
      exact Option.noConfusion hlk
    · rw [if_pos (by simp [htg])] at hlk
      exact hd st hlk
  | dispatch n0 =>
    intro st hlk
    by_cases hg : alookup s1.tasks n0 = some TState.waiting
    · simp only [dispatchOp, hg, if_pos] at hlk
      by_cases he : n = n0
      · have := hd TState.waiting (by rw [he]; exact hg)
        simp [TState.isTerminal] at this
      · exact dead_mapSnd s1 (fun m st => if m = n0 then TState.running else st) n
          (by intro st0 h0
              dsimp only
              rw [if_neg he]
              exact h0) hd st hlk
    · simp only [dispatchOp, hg, if_neg] at hlk
      exact hd st hlk
  | finish n0 exitOk =>
    intro st hlk
    by_cases hg : alookup s1.tasks n0 = some TState.running
    · simp only [finishOp, hg, if_pos] at hlk
      by_cases he : n = n0
      · have := hd TState.running (by rw [he]; exact hg)
        simp [TState.isTerminal] at this
      · exact dead_mapSnd s1
          (fun m st => if m = n0 then
            (if exitOk then TState.succeeded else TState.failed) else st) n
          (by intro st0 h0
              dsimp only
              rw [if_neg he]
              exact h0) hd st hlk
    · simp only [finishOp, hg, if_neg] at hlk
      exact hd st hlk
  | cascade root =>
    intro st hlk
    by_cases hcf : cfg = true
    · subst hcf
      simp only [cascadeOp, if_pos] at hlk
      exact dead_mapSnd s1
        (fun m st => if (m ∈ reachSet es2 root ∧ m ≠ root) ∧ ¬ st.isTerminal
          then TState.cancelled else st) n
        (by intro st0 h0
            dsimp only
            rw [if_neg (by rintro ⟨_, hnt⟩; exact hnt h0)]
            exact h0) hd st hlk
    · have hcf2 : cfg = false := by
        cases cfg
        · rfl
        · exact absurd rfl hcf
      subst hcf2
      simp only [cascadeOp, Bool.false_eq_true, if_neg] at hlk
      exact hd st hlk

theorem ssteps_preserve_dead (cfg : Bool) (es2 : List (TName × TName)) (s1 s2 : SState)
    (n : TName) (hsteps : SSteps cfg es2 s1 s2) (hd : deadOrGone s1 n) :
    deadOrGone s2 n := by
  induction hsteps with
  | refl => exact hd
  | tail hs hstep ih => exact sstep_preserves_dead _ _ _ _ _ n hstep ih


/-- C3: with cascade enabled, after the failed root's single cascade pass
every transitive dependent that was not already terminal is CANCELLED (for
a chain A→B→C both B and C are), already-terminal nodes are left untouched,
the cascade is idempotent (re-running it changes nothing, so terminal nodes
are never revisited), and no transitive dependent is ever admitted (found
RUNNING) in any later scheduler state. -/
theorem c3_cascade_correctness :
    ∀ (es : List (TName × TName)) (s : SState) (a b c : TName) (stb stc : TState),
      (a, b) ∈ es → (b, c) ∈ es → b ≠ a → c ≠ a →
      alookup s.tasks a = some TState.failed →
      alookup s.tasks b = some stb → stb.isTerminal = false →
      alookup s.tasks c = some stc → stc.isTerminal = false →
      (alookup (cascadeOp true es s a).1.tasks b = some TState.cancelled ∧
       alookup (cascadeOp true es s a).1.tasks c = some TState.cancelled) ∧
      (∀ n stn, Reaches es a n → n ≠ a → alookup s.tasks n = some stn →
        stn.isTerminal = false →
        alookup (cascadeOp true es s a).1.tasks n = some TState.cancelled) ∧
      (∀ n stn, alookup s.tasks n = some stn → stn.isTerminal = true →
        alookup (cascadeOp true es s a).1.tasks n = some stn) ∧
      (cascadeOp true es (cascadeOp true es s a).1 a).1 = (cascadeOp true es s a).1 ∧
      (∀ (cfg : Bool) (s2 : SState), SSteps cfg es (cascadeOp true es s a).1 s2 →
        ∀ n, Reaches es a n → n ≠ a →
          alookup s2.tasks n ≠ some TState.running) := by
  intro es s a b c stb stc hab hbc hba hca ha hb hbterm hc hcterm
  have hcancel : ∀ n stn, Reaches es a n → n ≠ a → alookup s.tasks n = some stn →
      stn.isTerminal = false →
      alookup (cascadeOp true es s a).1.tasks n = some TState.cancelled := by
    intro n stn hr hna hlk hterm
    simp only [cascadeOp, if_pos]
    rw [alookup_mapSnd, hlk]
    simp only [Option.map_some']
    congr 1
    rw [if_pos ⟨⟨reaches_mem_reachSet es a n hr, hna⟩, by simp [hterm]⟩]
  have hkeep : ∀ n stn, alookup s.tasks n = some stn → stn.isTerminal = true →
      alookup (cascadeOp true es s a).1.tasks n = some stn := by
    intro n stn hlk hterm
    simp only [cascadeOp, if_pos]
    rw [alookup_mapSnd, hlk]
    simp only [Option.map_some']
    congr 1
    rw [if_neg (by rintro ⟨_, hnt⟩; exact hnt hterm)]
  refine ⟨⟨?_, ?_⟩, hcancel, hkeep, ?_, ?_⟩
  · exact hcancel b stb (Reaches.single hab) hba hb hbterm
  · exact hcancel c stc (Reaches.tail (Reaches.single hab) hbc) hca hc hcterm
  · simp only [cascadeOp, if_pos]
    have hff : ∀ (m : TName) (st : TState),
        (fun m st => if (m ∈ reachSet es a ∧ m ≠ a) ∧ ¬ st.isTerminal
          then TState.cancelled else st) m
        ((fun m st => if (m ∈ reachSet es a ∧ m ≠ a) ∧ ¬ st.isTerminal
          then TState.cancelled else st) m st) =
        (fun m st => if (m ∈ reachSet es a ∧ m ≠ a) ∧ ¬ st.isTerminal
          then TState.cancelled else st) m st := by
      intro m st
      dsimp only
      by_cases hcond : (m ∈ reachSet es a ∧ m ≠ a) ∧ ¬ st.isTerminal = true
      · rw [if_pos hcond]
        rw [if_neg (by rintro ⟨_, hnt⟩; exact hnt rfl)]
      · rw [if_neg hcond, if_neg hcond]
    simp only [SState.mk.injEq]
    constructor
    · unfold mapSnd
      rw [List.map_map]
      apply List.map_congr_left
      intro p _
      show (p.1, _) = (p.1, _)
      rw [hff p.1 p.2]
    · rw [List.filter_filter]
      exact List.filter_congr (fun x _ => by simp)
  · intro cfg s2 hsteps n hr hna hlk
    have hdead1 : deadOrGone (cascadeOp true es s a).1 n := by
      intro st hlk1
      simp only [cascadeOp, if_pos] at hlk1
      rw [alookup_mapSnd] at hlk1
      cases hpre : alookup s.tasks n with
      | none =>
        rw [hpre] at hlk1
        exact Option.noConfusion hlk1
      | some st0 =>
        rw [hpre] at hlk1
        simp only [Option.map_some'] at hlk1
        injection hlk1 with he
        rw [← he]
        by_cases hterm : st0.isTerminal = true
        · rw [if_neg (by rintro ⟨_, hnt⟩; exact hnt hterm)]
          exact hterm
        · rw [if_pos ⟨⟨reaches_mem_reachSet es a n hr, hna⟩, hterm⟩]
          rfl
    have hdead2 := ssteps_preserve_dead cfg es _ s2 n hsteps hdead1
    have := hdead2 TState.running hlk
    simp [TState.isTerminal] at this

theorem c3_witness :
    alookup (cascadeOp true [(("a").data, ("b").data), (("b").data, ("c").data)]
      ⟨[(("a").data, TState.failed), (("b").data, TState.waiting),
        (("c").data, TState.waiting)], []⟩ ("a").data).1.tasks ("b").data =
      some TState.cancelled ∧
    alookup (cascadeOp true [(("a").data, ("b").data), (("b").data, ("c").data)]
      ⟨[(("a").data, TState.failed), (("b").data, TState.waiting),
        (("c").data, TState.waiting)], []⟩ ("a").data).1.tasks ("c").data =
      some TState.cancelled :=
  (c3_cascade_correctness [(("a").data, ("b").data), (("b").data, ("c").data)]
    ⟨[(("a").data, TState.failed), (("b").data, TState.waiting),
      (("c").data, TState.waiting)], []⟩ ("a").data ("b").data ("c").data
    TState.waiting TState.waiting (by decide) (by decide) (by decide) (by decide)
    (by decide) (by decide) (by decide) (by decide) (by decide)).1


theorem device_eq_of_id (l : List Device) (hnd : (l.map Device.devId).Nodup)
    (c d : Device) (hc : c ∈ l) (hd : d ∈ l) (he : c.devId = d.devId) : c = d := by
  induction l with
  | nil => simp at hc
  | cons x t ih =>
    simp only [List.map_cons, List.nodup_cons] at hnd
    rcases List.mem_cons.mp hc with rfl | hc2
    · rcases List.mem_cons.mp hd with rfl | hd2
      · rfl
      · exfalso
        apply hnd.1
        rw [he]
        exact List.mem_map.mpr ⟨d, hd2, rfl⟩
    · rcases List.mem_cons.mp hd with rfl | hd2
      · exfalso
        apply hnd.1
        rw [← he]
        exact List.mem_map.mpr ⟨c, hc2, rfl⟩
      · exact ih hnd.2 hc2 hd2

/-- C2: (spec-modelled) `try_reserve` returns `none` exactly when no subset
of the requested devices of size at least `minDevices` has free memory at
least `memPerDevice` on every member; otherwise it returns a subset of the
requested ids of sufficient size whose members all have enough free memory,
reserved atomically across the whole returned set (every chosen device gets
the increment in the single returned device table, others are untouched)
and never driving any device's reserved amount above its capacity. -/
theorem c2_try_reserve_contract :
    ∀ (devs : List Device) (ids : List Nat) (mem minD : Nat),
      (devs.map Device.devId).Nodup →
      (∀ d ∈ devs, d.reserved ≤ d.capacity) →
      (try_reserve devs ids mem minD = none ↔
        ¬ ∃ sub : List Device, sub.Sublist devs ∧ minD ≤ sub.length ∧
          ∀ d ∈ sub, d.devId ∈ ids ∧ mem ≤ d.freeMem) ∧
      (∀ chosen devs2, try_reserve devs ids mem minD = some (chosen, devs2) →
        minD ≤ chosen.length ∧
        (∀ i ∈ chosen, i ∈ ids) ∧
        (∀ i ∈ chosen, ∃ d ∈ devs, d.devId = i ∧ mem ≤ d.freeMem) ∧
        devs2 = devs.map (fun d => if d.devId ∈ chosen
          then { d with reserved := d.reserved + mem } else d) ∧
        (∀ d2 ∈ devs2, d2.reserved ≤ d2.capacity)) := by
  intro devs ids mem minD hnd hcap
  have hperm : (List.insertionSort (fun a b => bestFitB a b = true)
      (devs.filter fun d => d.devId ∈ ids ∧ mem ≤ d.freeMem)).Perm
      (devs.filter fun d => d.devId ∈ ids ∧ mem ≤ d.freeMem) :=
    List.perm_insertionSort _ _
  have hlen := hperm.length_eq
  constructor
  · constructor
    · intro hnone
      rintro ⟨sub, hsub, hsublen, hsubprop⟩
      unfold try_reserve at hnone
      by_cases hle : minD ≤ (List.insertionSort (fun a b => bestFitB a b = true)
          (devs.filter fun d => d.devId ∈ ids ∧ mem ≤ d.freeMem)).length
      · rw [if_pos hle] at hnone
        exact Option.noConfusion hnone
      · have h1 : sub.filter (fun d => d.devId ∈ ids ∧ mem ≤ d.freeMem) = sub :=
          List.filter_eq_self.mpr (fun d hd => by
            simp only [decide_eq_true_eq]
            exact hsubprop d hd)
        have h2 := List.Sublist.filter
          (fun d => (d.devId ∈ ids ∧ mem ≤ d.freeMem : Bool)) hsub
        rw [h1] at h2
        have h3 := h2.length_le
        omega
    · intro hnex
      unfold try_reserve
      rw [if_neg]
      intro hle
      apply hnex
      refine ⟨devs.filter fun d => d.devId ∈ ids ∧ mem ≤ d.freeMem,
        List.filter_sublist devs, by omega, ?_⟩
      intro d hd
      have := List.mem_filter.mp hd
      simpa using this.2
  · intro chosen devs2 hsome
    unfold try_reserve at hsome
    by_cases hle : minD ≤ (List.insertionSort (fun a b => bestFitB a b = true)
        (devs.filter fun d => d.devId ∈ ids ∧ mem ≤ d.freeMem)).length
    · rw [if_pos hle] at hsome
      injection hsome with hpair
      rw [Prod.mk.injEq] at hpair
      obtain ⟨hch, hdv⟩ := hpair
      subst hch
      subst hdv
      have hchosen_dev : ∀ i ∈ (List.map (fun x => x.devId)
          (List.take minD (List.insertionSort (fun a b => bestFitB a b = true)
            (List.filter (fun d => decide (d.devId ∈ ids ∧ mem ≤ d.freeMem)) devs)))),
          ∃ d ∈ devs, d.devId = i ∧ mem ≤ d.freeMem := by
        intro i hi
        obtain ⟨d, hd, hdi⟩ := List.mem_map.mp hi
        have hdc := hperm.mem_iff.mp (List.take_subset minD _ hd)
        have hmf := List.mem_filter.mp hdc
        have hprops : d.devId ∈ ids ∧ mem ≤ d.freeMem := by simpa using hmf.2
        exact ⟨d, hmf.1, hdi, hprops.2⟩
      refine ⟨?_, ?_, hchosen_dev, rfl, ?_⟩
      · simp only [List.length_map, List.length_take]
        omega
      · intro i hi
        obtain ⟨d, hd, hdi⟩ := List.mem_map.mp hi
        have hdc := hperm.mem_iff.mp (List.take_subset minD _ hd)
        have hmf := List.mem_filter.mp hdc
        have hprops : d.devId ∈ ids ∧ mem ≤ d.freeMem := by simpa using hmf.2
        rw [← hdi]
        exact hprops.1
      · intro d2 hd2
        obtain ⟨d, hd, hde⟩ := List.mem_map.mp hd2
        rw [← hde]
        by_cases hin : d.devId ∈ (List.map (fun x => x.devId)
          (List.take minD (List.insertionSort (fun a b => bestFitB a b = true)
            (List.filter (fun d => decide (d.devId ∈ ids ∧ mem ≤ d.freeMem)) devs))))
        · rw [if_pos hin]
          obtain ⟨c, hcmem, hcid, hcfree⟩ := hchosen_dev d.devId hin
          have hcd : c = d := device_eq_of_id devs hnd c d hcmem hd hcid
          rw [hcd] at hcfree
          have hdc := hcap d hd
          unfold Device.freeMem at hcfree
          simp only
          omega
        · rw [if_neg hin]
          exact hcap d hd
    · rw [if_neg hle] at hsome
      exact Option.noConfusion hsome

theorem c2_witness :
    try_reserve [⟨0, 10, 0⟩, ⟨1, 4, 0⟩] [0, 1] 3 1 =
      some ([0], [⟨0, 10, 3⟩, ⟨1, 4, 0⟩]) ∧
    (∀ d2 ∈ [(⟨0, 10, 3⟩ : Device), ⟨1, 4, 0⟩], d2.reserved ≤ d2.capacity) :=
  ⟨by decide,
   (by decide : [(⟨0, 10, 3⟩ : Device), ⟨1, 4, 0⟩] =
      ([(⟨0, 10, 3⟩ : Device), ⟨1, 4, 0⟩] : List Device)) ▸
   ((c2_try_reserve_contract [⟨0, 10, 0⟩, ⟨1, 4, 0⟩] [0, 1] 3 1 (by decide)
      (by decide)).2 [0] [⟨0, 10, 3⟩, ⟨1, 4, 0⟩] (by decide)).2.2.2.2⟩


theorem hasMagic_cons_of (c : Char) (l : List Char) (h : hasMagic l = true) :
    hasMagic (c :: l) = true := by
  cases l with
  | nil => simp [hasMagic] at h
  | cons y ys =>
    simp [hasMagic]
    right
    exact h

theorem hasMagic_of_decomp (a b : List Char) :
    hasMagic (a ++ '$' :: '{' :: b) = true := by
  induction a with
  | nil => simp [hasMagic]
  | cons x xs ih => exact hasMagic_cons_of x _ ih

theorem hasMagic_decomp (l : List Char) (h : hasMagic l = true) :
    ∃ a b, l = a ++ '$' :: '{' :: b := by
  induction l with
  | nil => simp [hasMagic] at h
  | cons c1 t ih =>
    cases t with
    | nil => simp [hasMagic] at h
    | cons c2 rest =>
      simp only [hasMagic, decide_eq_true_eq, Bool.or_eq_true] at h
      rcases h with ⟨e1, e2⟩ | h2
      · exact ⟨[], rest, by simp [e1, e2]⟩
      · obtain ⟨a, b, hab⟩ := ih (by simpa using h2)
        exact ⟨c1 :: a, b, by simp [hab]⟩

theorem substM_no_magic (env : MagicEnv) : ∀ l, hasMagic l = false → substM env l = l := by
  have key : ∀ n (l : List Char), l.length = n → hasMagic l = false → substM env l = l := by
    intro n
    induction n using Nat.strong_induction_on with
    | _ n ih =>
      intro l hlen h
      match l with
      | [] => simp [substM]
      | [c] => simp [substM]
      | c1 :: c2 :: rest =>
        simp only [hasMagic, decide_eq_false_iff_not, not_or] at h
        obtain ⟨h1, h2⟩ := h
        have hm : hasMagic (c2 :: rest) = false := by
          by_contra hx
          exact h2 (by simpa using Bool.not_eq_false _ |>.mp hx)
        rw [substM, if_neg (by exact_mod_cast h1)]
        have := ih (c2 :: rest).length (by simp at hlen ⊢; omega) (c2 :: rest) rfl hm
        rw [this]
  exact fun l => key l.length l rfl

theorem pyStrip_decomp (s : List Char) : ∃ pre suf, s = pre ++ pyStrip s ++ suf := by
  refine ⟨s.takeWhile pyIsSpace,
    ((s.dropWhile pyIsSpace).reverse.takeWhile pyIsSpace).reverse, ?_⟩
  conv_lhs => rw [← List.takeWhile_append_dropWhile (p := pyIsSpace) (l := s)]
  rw [List.append_assoc]
  congr 1
  unfold pyStrip dropTrailing
  conv_lhs => rw [← List.reverse_reverse (s.dropWhile pyIsSpace),
    ← List.takeWhile_append_dropWhile (p := pyIsSpace) (l := (s.dropWhile pyIsSpace).reverse)]
  rw [List.reverse_append]

theorem hasMagic_pyStrip (s : List Char) (h : hasMagic s = false) :
    hasMagic (pyStrip s) = false := by
  by_contra hx
  have hx2 : hasMagic (pyStrip s) = true := by simpa using Bool.not_eq_false _ |>.mp hx
  obtain ⟨a, b, hab⟩ := hasMagic_decomp _ hx2
  obtain ⟨pre, suf, hs⟩ := pyStrip_decomp s
  rw [hab] at hs
  have heq : s = (pre ++ a) ++ '$' :: '{' :: (b ++ suf) := by rw [hs]; simp
  rw [heq, hasMagic_of_decomp] at h
  exact absurd h (by simp)

theorem dropTrailing_decomp (m : List Char) : ∃ t, m = dropTrailing m ++ t := by
  refine ⟨(m.reverse.takeWhile pyIsSpace).reverse, ?_⟩
  unfold dropTrailing
  conv_lhs => rw [← List.reverse_reverse m,
    ← List.takeWhile_append_dropWhile (p := pyIsSpace) (l := m.reverse)]
  rw [List.reverse_append]

theorem dropWhile_dropTrailing_fix (m : List Char) (hm : m.dropWhile pyIsSpace = m) :
    (dropTrailing m).dropWhile pyIsSpace = dropTrailing m := by
  obtain ⟨t, ht⟩ := dropTrailing_decomp m
  cases hd : dropTrailing m with
  | nil => simp
  | cons x xs =>
    have hxm : ¬ pyIsSpace x = true := by
      intro hx
      rw [hd] at ht
      rw [ht] at hm
      rw [List.cons_append, List.dropWhile_cons, if_pos hx] at hm
      have hc := congrArg List.length hm
      have hle := (List.dropWhile_sublist (l := xs ++ t) pyIsSpace).length_le
      simp [List.length_append] at hc hle
      omega
    rw [List.dropWhile_cons, if_neg hxm]

theorem dropTrailing_idem (m : List Char) : dropTrailing (dropTrailing m) = dropTrailing m := by
  unfold dropTrailing
  rw [List.reverse_reverse, List.dropWhile_idempotent]

theorem pyStrip_idem (s : List Char) : pyStrip (pyStrip s) = pyStrip s := by
  have h1 : (s.dropWhile pyIsSpace).dropWhile pyIsSpace = s.dropWhile pyIsSpace :=
    List.dropWhile_idempotent _ _
  show pyStrip (dropTrailing (s.dropWhile pyIsSpace)) = _
  unfold pyStrip
  rw [dropWhile_dropTrailing_fix _ h1, dropTrailing_idem]

/-- C9: `Magics.resolve` is a total function on strings (modelled with
string-valued keyword arguments): stripping is always applied to the input
(resolving a string and resolving its stripped form agree), an input with
no `"${"` occurrence resolves to its stripped self, and every failing match
— unknown keyword or `None` value, unknown resolver, or a resolver that
raises — substitutes the matched text `"${" + expr + "}"` verbatim. -/
theorem c9_resolve_total_and_verbatim :
    (∀ (env : MagicEnv) (s : List Char), resolveM env s = resolveM env (pyStrip s)) ∧
    (∀ (env : MagicEnv) (s : List Char), hasMagic s = false →
      resolveM env s = pyStrip s) ∧
    (∀ (env : MagicEnv) (g : List Char),
      ((':' ∉ g ∧ (env.vars g = none ∨ env.vars g = some none)) ∨
       (':' ∈ g ∧ env.resolvers (g.takeWhile (· ≠ ':')) = none) ∨
       (∃ f, ':' ∈ g ∧ env.resolvers (g.takeWhile (· ≠ ':')) = some f ∧
         f ((splitOnChar ',' ((g.dropWhile (· ≠ ':')).tail)).map (resolveM env)) = none)) →
      resolveGroup env g = verbatimOf g) := by
  refine ⟨?_, ?_, ?_⟩
  · intro env s
    rw [resolveM, resolveM, pyStrip_idem]
  · intro env s h
    rw [resolveM]
    exact substM_no_magic env _ (hasMagic_pyStrip s h)
  · intro env g hfail
    rcases hfail with ⟨h1, h2⟩ | ⟨h1, h2⟩ | ⟨f, h1, h2, h3⟩
    · rw [resolveGroup, dif_neg h1]
      rcases h2 with h | h <;> rw [h]
    · rw [resolveGroup, dif_pos h1, h2]
    · rw [resolveGroup, dif_pos h1, h2]
      have hat : ((splitOnChar ',' ((g.dropWhile (· ≠ ':')).tail)).attach.map
          fun p => resolveM env p.1) =
          (splitOnChar ',' ((g.dropWhile (· ≠ ':')).tail)).map (resolveM env) :=
        List.attach_map_coe _ _
      rw [hat]
      change (match f ((splitOnChar ',' ((g.dropWhile (· ≠ ':')).tail)).map (resolveM env)) with
        | none => verbatimOf g
        | some out => out) = verbatimOf g
      rw [h3]

theorem c9_witness :
    hasMagic (" ab ").data = false ∧
    resolveM ⟨fun _ => none, fun _ => none⟩ (" ab ").data = pyStrip (" ab ").data ∧
    resolveGroup ⟨fun _ => none, fun _ => none⟩ ['x'] = verbatimOf ['x'] :=
  ⟨by decide,
   c9_resolve_total_and_verbatim.2.1 ⟨fun _ => none, fun _ => none⟩ (" ab ").data
     (by decide),
   c9_resolve_total_and_verbatim.2.2 ⟨fun _ => none, fun _ => none⟩ ['x']
     (Or.inl ⟨by decide, Or.inl rfl⟩)⟩

end Catin

